import Mathlib

/-!
Verification development for the gomoku (five-in-a-row) engine in `src/game.js`.

The embedding below translates the game's core data model and the
move-selection / search functions into Lean.  Conventions:

* `gameState.board` is a 15×15 matrix `board[x][y]` of cell values
  (0 = empty, 1 = black, 2 = white); it is modelled by `Board`
  (a list of 15 rows, row `x` holding the column values `y = 0..14`).
* JavaScript number arithmetic is modelled exactly: integer-valued
  scores stay in `ℕ`, and every quantity built with the decimal weights
  (1.2, 1.8, 0.8, 1.3, ...) is stored multiplied by 10, turning those
  weights into the integers 12, 18, 8, 13, ....  Scaling by 10 is an
  order- and equality-isomorphism on each family of compared values
  (candidate scores, board evaluations with their win-score sentinels),
  so every comparison, sort and maximum in the search behaves verbatim
  as in the source.  All constant products that the source adds to
  integer scores (e.g. `SCORES.OPEN_FOUR * 0.8 = 80000`) are exact in
  IEEE double arithmetic at these magnitudes, so the exact-arithmetic
  model agrees with the JavaScript values.
* `Infinity` / `-Infinity`, used by the alpha-beta search, are modelled
  by the extended rationals `XQ`.
* The AI statistics counters (`aiStats.nodeCount` etc.) are a purely
  observational side channel and are not modelled.
* DOM / canvas side effects (`drawBoard`, `updateMoveHistory`, ...) are
  presentation glue; the only one whose argument matters to the state
  model is `showResult(winner)`, recorded in the `reportedWinner` field.
-/

namespace Gomoku

/-- Cell matrix `board[x][y]`: row `x` is a list of column values. -/
abbrev Board := List (List ℕ)

/-- Bounds test `0 <= x < 15 && 0 <= y < 15` (CONFIG.BOARD_SIZE = 15). -/
def inB (x y : ℤ) : Bool :=
  decide (0 ≤ x ∧ x < 15 ∧ 0 ≤ y ∧ y < 15)

/-- Read `board[x][y]`; all source reads are guarded by a bounds check,
out-of-bounds reads are normalised to 0 (empty). -/
def getCell (b : Board) (x y : ℤ) : ℕ :=
  if inB x y then (b.getD x.toNat []).getD y.toNat 0 else 0

/-- Write `board[x][y] = v` (in-bounds writes only, as in the source). -/
def setCell (b : Board) (x y : ℤ) (v : ℕ) : Board :=
  if inB x y then b.set x.toNat ((b.getD x.toNat []).set y.toNat v) else b

/-- The four scan axes `[[1,0],[0,1],[1,1],[1,-1]]`. -/
def dirs : List (ℤ × ℤ) := [(1, 0), (0, 1), (1, 1), (1, -1)]

/-- Row-major cell enumeration `for i in 0..14: for j in 0..14`. -/
def allCells : List (ℤ × ℤ) :=
  (List.range 15).flatMap fun (i : ℕ) =>
    (List.range 15).map fun (j : ℕ) => ((i : ℤ), (j : ℤ))

/-- Tag of one cell of a 9-cell line window: own stone `O`, blocking cell
`X` (opponent stone or board boundary), or empty `E` (the character `_`). -/
inductive LC where
  | O : LC
  | X : LC
  | E : LC
deriving DecidableEq

/-- Boolean test that `s` starts with the literal sequence `pat`. -/
def startsWithSeq : List LC → List LC → Bool
  | [], _ => true
  | _ :: _, [] => false
  | a :: t, c :: u => a == c && startsWithSeq t u

/-- Boolean test that the literal sequence `pat` occurs contiguously inside
`s`; this models `regex.test(str)` for the alternation-of-literals regexes
(and `String.includes`) used by `classifyPattern`. -/
def containsSeq (pat : List LC) : List LC → Bool
  | [] => startsWithSeq pat []
  | c :: rest => startsWithSeq pat (c :: rest) || containsSeq pat rest

/-- Exact SCORES table from the source (`const SCORES = {...}`); the
LIVE_/RUSH_/SLEEP_ aliases share values with the canonical names. -/
def SCORE_FIVE : ℕ := 1000000
def SCORE_OPEN_FOUR : ℕ := 100000
def SCORE_SIMPLE_FOUR : ℕ := 10000
def SCORE_BROKEN_THREE : ℕ := 1000
def SCORE_OPEN_THREE : ℕ := 800
def SCORE_SIMPLE_THREE : ℕ := 100
def SCORE_OPEN_TWO : ℕ := 50
def SCORE_SIMPLE_TWO : ℕ := 10
def SCORE_OPEN_ONE : ℕ := 5

/-- Disjunction of literal-pattern matches: models one `||`-chain of
`regex.test(newPattern)` calls whose regex is an alternation of
literals. -/
def matchesAny (pats : List (List LC)) (np : List LC) : Bool :=
  pats.any fun p => containsSeq p np

/-- Body of `classifyPattern` after the centre-occupancy guard: the ordered
regex cascade over the 9-character window with the centre stone placed.
Each alternation is written as the corresponding list of literal patterns
(`O` = own, `X` = block/boundary, `E` = `_`). -/
def classifyScore (np : List LC) : ℕ :=
  if matchesAny [[.O, .O, .O, .O, .O]] np then SCORE_FIVE
  else if matchesAny [[.E, .O, .O, .O, .O, .E],
      [.E, .O, .O, .O, .O, .X],
      [.X, .O, .O, .O, .O, .E]] np then SCORE_OPEN_FOUR
  else if matchesAny [[.X, .O, .O, .O, .O, .E],
      [.E, .O, .O, .O, .O, .X],
      [.O, .O, .O, .E, .O],
      [.O, .O, .E, .O, .O],
      [.O, .E, .O, .O, .O]] np then SCORE_SIMPLE_FOUR
  else if matchesAny [[.E, .O, .O, .E, .O, .E],
      [.E, .O, .E, .O, .O, .E]] np then SCORE_BROKEN_THREE
  else if matchesAny [[.E, .O, .O, .O, .E]] np then SCORE_OPEN_THREE
  else if matchesAny [[.X, .O, .O, .O, .E],
      [.E, .O, .O, .O, .X],
      [.O, .O, .E, .O],
      [.O, .E, .O, .O]] np then SCORE_SIMPLE_THREE
  else if matchesAny [[.E, .O, .O, .E]] np then SCORE_OPEN_TWO
  else if matchesAny [[.X, .O, .O, .E],
      [.E, .O, .O, .X],
      [.O, .E, .O]] np then SCORE_SIMPLE_TWO
  else if matchesAny [[.E, .O, .E]] np then SCORE_OPEN_ONE
  else 0

/-- Pattern classifier `classifyPattern(pattern, center)`: requires the
centre cell to be empty, simulates placing the own stone there and runs
the regex cascade. -/
def classifyPattern (p : List LC) (center : ℕ) : ℕ :=
  if p.getD center .X ≠ .E then 0
  else classifyScore (p.set center .O)

/-- Build the 9-cell window centred on `(x, y)` along direction `(dx, dy)`
and classify it (`analyzeLinePattern`); boundary cells and opponent stones
are both tagged `X`. -/
def analyzeLinePattern (b : Board) (x y dx dy : ℤ) (player : ℕ) : ℕ :=
  let opponent := if player = 1 then 2 else 1
  let pattern := (List.range 9).map fun (k : ℕ) =>
    let i : ℤ := (k : ℤ) - 4
    let nx := x + dx * i
    let ny := y + dy * i
    if inB nx ny = false then LC.X
    else if getCell b nx ny = player then LC.O
    else if getCell b nx ny = opponent then LC.X
    else LC.E
  classifyPattern pattern 4

/-- Alias `evaluateLine` (kept for the older call sites). -/
def evaluateLine (b : Board) (x y dx dy : ℤ) (player : ℕ) : ℕ :=
  analyzeLinePattern b x y dx dy player

/-- Maximal THREAT_LEVELS entry whose score threshold the given pattern
score reaches; the SCORES thresholds are monotone in the level, so the
`Object.entries` maximum collapses to this cascade. -/
def threatLevelOf (s : ℕ) : ℕ :=
  if SCORE_FIVE ≤ s then 7
  else if SCORE_OPEN_FOUR ≤ s then 6
  else if SCORE_SIMPLE_FOUR ≤ s then 5
  else if SCORE_BROKEN_THREE ≤ s then 4
  else if SCORE_OPEN_THREE ≤ s then 3
  else if SCORE_SIMPLE_THREE ≤ s then 2
  else if SCORE_OPEN_TWO ≤ s then 1
  else 0

/-- The four per-axis pattern scores at `(x, y)` for `player`. -/
def axisScores (b : Board) (x y : ℤ) (player : ℕ) : List ℕ :=
  dirs.map fun d => analyzeLinePattern b x y d.1 d.2 player

/-- Threat aggregator `evaluatePointAdvanced(x, y, player)`: sum of the
four axis scores plus the compound-threat bonuses, together with the
maximal threat level.  The source returns the plain number 0 for an
occupied cell; every caller first filters for emptiness, so `(0, 0)` is
the faithful value there.  The bonus constants are the exact values of
`SCORES.FIVE*0.5`, `SCORES.OPEN_FOUR*0.8`, `SCORES.OPEN_FOUR*0.7` and
`SCORES.SIMPLE_FOUR*0.9` in double arithmetic. -/
def evaluatePointAdvanced (b : Board) (x y : ℤ) (player : ℕ) : ℕ × ℕ :=
  if getCell b x y ≠ 0 then (0, 0)
  else
    let ss := axisScores b x y player
    let total := ss.sum
    let cOF := ss.countP fun s => decide (SCORE_OPEN_FOUR ≤ s)
    let cSF := ss.countP fun s => decide (¬ SCORE_OPEN_FOUR ≤ s ∧ SCORE_SIMPLE_FOUR ≤ s)
    let cOT := ss.countP fun s =>
      decide (¬ SCORE_OPEN_FOUR ≤ s ∧ ¬ SCORE_SIMPLE_FOUR ≤ s ∧ SCORE_OPEN_THREE ≤ s)
    let maxT := (ss.map threatLevelOf).foldl Nat.max 0
    let bonus :=
      (if 1 ≤ cOF then 500000 else 0) +
      (if 2 ≤ cSF then 80000 else 0) +
      (if 1 ≤ cSF ∧ 1 ≤ cOT then 70000 else 0) +
      (if 2 ≤ cOT then 9000 else 0)
    (total + bonus, maxT)

/-- Backwards-compatible `evaluatePoint`: just the score component. -/
def evaluatePoint (b : Board) (x y : ℤ) (player : ℕ) : ℕ :=
  (evaluatePointAdvanced b x y player).1

/-- One step of the win-check scan: cell `i` steps from `(x, y)` along
`(dx, dy)` is in bounds and holds a `p` stone. -/
def stepOK (b : Board) (x y dx dy : ℤ) (p : ℕ) (i : ℤ) : Bool :=
  inB (x + dx * i) (y + dy * i) && decide (getCell b (x + dx * i) (y + dy * i) = p)

/-- The `for (let i = 1; i < 5; i++) ... else break` counting loop of
`checkWin` / `checkWinWithoutState`: number of contiguous `p` stones
strictly beyond `(x, y)` in direction `(dx, dy)`, capped at 4. -/
def countRun (b : Board) (x y dx dy : ℤ) (p : ℕ) : ℕ :=
  if stepOK b x y dx dy p 1 then
    if stepOK b x y dx dy p 2 then
      if stepOK b x y dx dy p 3 then
        if stepOK b x y dx dy p 4 then 4 else 3
      else 2
    else 1
  else 0

/-- The cell list built by `checkWin`'s `push`/`unshift` loops: the
contiguous segment from `bk` steps backwards to `f` steps forwards. -/
def runLineCells (x y dx dy : ℤ) (bk f : ℕ) : List (ℤ × ℤ) :=
  (List.range (bk + 1 + f)).map fun (k : ℕ) =>
    (x + dx * ((k : ℤ) - (bk : ℤ)), y + dy * ((k : ℤ) - (bk : ℤ)))

/-- Win check `checkWin(x, y, player)`: scans the four axes in order and,
on the first axis whose contiguous segment through `(x, y)` has length at
least 5, returns that segment (the value stored in
`gameState.winningLine`); `none` models the `false` return. -/
def checkWin (b : Board) (x y : ℤ) (p : ℕ) : Option (List (ℤ × ℤ)) :=
  dirs.findSome? fun d =>
    let f := countRun b x y d.1 d.2 p
    let bk := countRun b x y (-d.1) (-d.2) p
    if 5 ≤ bk + 1 + f then some (runLineCells x y d.1 d.2 bk f) else none

/-- Boolean result of `checkWin`. -/
def checkWinB (b : Board) (x y : ℤ) (p : ℕ) : Bool :=
  (checkWin b x y p).isSome

/-- Win check `checkWinWithoutState(x, y, player)`: same counting, no
winning-line recording. -/
def checkWinWithoutState (b : Board) (x y : ℤ) (p : ℕ) : Bool :=
  dirs.any fun d =>
    decide (5 ≤ 1 + countRun b x y d.1 d.2 p + countRun b x y (-d.1) (-d.2) p)

/-- Offsets `(i, j)` with `-dist <= i, j <= dist`, in the nested-loop
order of `hasNeighbor`. -/
def offsetsList (dist : ℕ) : List (ℤ × ℤ) :=
  (List.range (2 * dist + 1)).flatMap fun (i : ℕ) =>
    (List.range (2 * dist + 1)).map fun (j : ℕ) =>
      ((i : ℤ) - (dist : ℤ), (j : ℤ) - (dist : ℤ))

/-- Neighbourhood test `hasNeighbor(x, y, distance)`: some stone within
Chebyshev distance `dist` (skipping the centre). -/
def hasNeighbor (b : Board) (x y : ℤ) (dist : ℕ) : Bool :=
  (offsetsList dist).any fun o =>
    !(decide (o.1 = 0 ∧ o.2 = 0)) && inB (x + o.1) (y + o.2) &&
      !(decide (getCell b (x + o.1) (y + o.2) = 0))

/-- Scan `findThreat(player, minScore)`: first empty neighbour-adjacent
cell whose point score reaches `minScore`, in row-major order. -/
def findThreat (b : Board) (player minScore : ℕ) : Option (ℤ × ℤ) :=
  allCells.find? fun c =>
    decide (getCell b c.1 c.2 = 0) && hasNeighbor b c.1 c.2 2 &&
      decide (minScore ≤ evaluatePoint b c.1 c.2 player)

/-- Scan `findImmediateWin(player)`: first empty neighbour-adjacent cell
whose placement wins for `player` (place / checkWin / retract is modelled
by checking the board with the stone set). -/
def findImmediateWin (b : Board) (player : ℕ) : Option (ℤ × ℤ) :=
  allCells.find? fun c =>
    decide (getCell b c.1 c.2 = 0) && hasNeighbor b c.1 c.2 2 &&
      checkWinB (setCell b c.1 c.2 player) c.1 c.2 player

/-- Test `hasImmediateWin(player)`. -/
def hasImmediateWin (b : Board) (player : ℕ) : Bool :=
  allCells.any fun c =>
    decide (getCell b c.1 c.2 = 0) && hasNeighbor b c.1 c.2 2 &&
      checkWinB (setCell b c.1 c.2 player) c.1 c.2 player

/-- Per-axis line scores used by the combo finders. -/
def lineScores (b : Board) (x y : ℤ) (player : ℕ) : List ℕ :=
  dirs.map fun d => evaluateLine b x y d.1 d.2 player

/-- Scan `findDoubleRushFour(player)`: first empty neighbour-adjacent cell
with at least two axes at rush-four strength. -/
def findDoubleRushFour (b : Board) (player : ℕ) : Option (ℤ × ℤ) :=
  allCells.find? fun c =>
    decide (getCell b c.1 c.2 = 0) && hasNeighbor b c.1 c.2 2 &&
      decide (2 ≤ (lineScores b c.1 c.2 player).countP
        fun s => decide (SCORE_SIMPLE_FOUR ≤ s))

/-- Scan `findFourThreeCombo(player)`: at least one rush-four axis and at
least one (non-rush-four) live-three axis. -/
def findFourThreeCombo (b : Board) (player : ℕ) : Option (ℤ × ℤ) :=
  allCells.find? fun c =>
    decide (getCell b c.1 c.2 = 0) && hasNeighbor b c.1 c.2 2 &&
      decide (1 ≤ (lineScores b c.1 c.2 player).countP
          (fun s => decide (SCORE_SIMPLE_FOUR ≤ s)) ∧
        1 ≤ (lineScores b c.1 c.2 player).countP
          fun s => decide (¬ SCORE_SIMPLE_FOUR ≤ s ∧ SCORE_OPEN_THREE ≤ s))

/-- Scan `findDoubleThree(player)`: at least two axes at live-three
strength (a rush-four axis also passes this test, as in the source). -/
def findDoubleThree (b : Board) (player : ℕ) : Option (ℤ × ℤ) :=
  allCells.find? fun c =>
    decide (getCell b c.1 c.2 = 0) && hasNeighbor b c.1 c.2 2 &&
      decide (2 ≤ (lineScores b c.1 c.2 player).countP
        fun s => decide (SCORE_OPEN_THREE ≤ s))

/-- Candidate record `{x, y, score}`; the weighted scores are stored in
`ℤ`, multiplied by 10 (see the header note). -/
structure Cand where
  x : ℤ
  y : ℤ
  score : ℤ
deriving DecidableEq

/-- Insert a candidate into a descending-sorted list, before any
candidate of equal score (so that a left-to-right fold is stable). -/
def insertCandDesc (c : Cand) : List Cand → List Cand
  | [] => [c]
  | d :: t => if c.score < d.score then d :: insertCandDesc c t else c :: d :: t

/-- The `candidates.sort((a, b) => b.score - a.score)` call: a stable
descending sort by score (`Array.prototype.sort` is stable; insertion
from the right keeps equal-score candidates in scan order). -/
def sortCandsDesc (l : List Cand) : List Cand :=
  l.foldr insertCandDesc []

/-- One directional scan arm of `evaluatePosition`: number of further own
stones (up to `fuel`) and whether the run ends blocked (1) or open (0). -/
def scanSide (b : Board) (p : ℕ) (dx dy : ℤ) : ℕ → ℤ → ℤ → ℕ × ℕ
  | 0, _, _ => (0, 0)
  | fuel + 1, x, y =>
    let nx := x + dx
    let ny := y + dy
    if inB nx ny && decide (getCell b nx ny = p) then
      let r := scanSide b p dx dy fuel nx ny
      (r.1 + 1, r.2)
    else
      (0, if inB nx ny && decide (getCell b nx ny = 0) then 0 else 1)

/-- Stone-position value `evaluatePosition(x, y, player)`:
`count² * (2 - blockedEnds)` per axis when fewer than two ends are
blocked. -/
def evaluatePosition (b : Board) (x y : ℤ) (p : ℕ) : ℕ :=
  (dirs.map fun d =>
    let f := scanSide b p d.1 d.2 4 x y
    let bk := scanSide b p (-d.1) (-d.2) 4 x y
    let count := 1 + f.1 + bk.1
    let block := f.2 + bk.2
    if block < 2 then count ^ 2 * (2 - block) else 0).sum

/-- Rush-four candidate scan `findAllRushFoursImproved(player)`: cells
whose best rush-four-or-better axis score is recorded, sorted descending,
top 10. -/
def findAllRushFoursImproved (b : Board) (player : ℕ) : List Cand :=
  (sortCandsDesc (allCells.filterMap fun c =>
    if getCell b c.1 c.2 = 0 ∧ hasNeighbor b c.1 c.2 2 = true then
      let ms := ((lineScores b c.1 c.2 player).filter
        fun s => decide (SCORE_SIMPLE_FOUR ≤ s)).foldl Nat.max 0
      if SCORE_SIMPLE_FOUR ≤ ms then some ⟨c.1, c.2, 10 * (ms : ℤ)⟩ else none
    else none)).take 10

/-- Defence scan `findAllDefensePoints(attackPlayer)`: all empty
neighbour-adjacent cells where the attacker would complete five. -/
def findAllDefensePoints (b : Board) (attackPlayer : ℕ) : List (ℤ × ℤ) :=
  allCells.filter fun c =>
    decide (getCell b c.1 c.2 = 0) && hasNeighbor b c.1 c.2 2 &&
      checkWinWithoutState (setCell b c.1 c.2 attackPlayer) c.1 c.2 attackPlayer

/-- Threat scan `findAllThreatsImproved(player)`: empty neighbour-adjacent
cells at live-three strength or better, sorted descending by score. -/
def findAllThreatsImproved (b : Board) (player : ℕ) : List Cand :=
  sortCandsDesc (allCells.filterMap fun c =>
    if getCell b c.1 c.2 = 0 ∧ hasNeighbor b c.1 c.2 2 = true then
      let s := evaluatePoint b c.1 c.2 player
      if SCORE_OPEN_THREE ≤ s then some ⟨c.1, c.2, 10 * (s : ℤ)⟩ else none
    else none)

/-- Number of stones on the board (the session invariant ties this to the
move-history length). -/
def stoneCount (b : Board) : ℕ :=
  (((Finset.range 15) ×ˢ (Finset.range 15)).filter
    fun ij => getCell b (ij.1 : ℤ) (ij.2 : ℤ) ≠ 0).card

/-- Extended rationals modelling JavaScript `-Infinity` / finite / `Infinity`
in the alpha-beta search. -/
inductive XQ where
  | negInf : XQ
  | val : ℤ → XQ
  | posInf : XQ
deriving DecidableEq

/-- Order test `a <= b` on extended rationals. -/
def XQ.ble : XQ → XQ → Bool
  | .negInf, _ => true
  | .val _, .negInf => false
  | .val a, .val c => decide (a ≤ c)
  | .val _, .posInf => true
  | .posInf, .posInf => true
  | .posInf, _ => false

/-- Strict order test `a < b` on extended rationals. -/
def XQ.blt (a c : XQ) : Bool := XQ.ble a c && !(XQ.ble c a)

/-- `Math.max` on extended rationals. -/
def XQ.qmax (a c : XQ) : XQ := if XQ.ble a c then c else a

/-- `Math.min` on extended rationals. -/
def XQ.qmin (a c : XQ) : XQ := if XQ.ble a c then a else c

/-- The scoring scan of `getCandidatesImproved(aiPlayer, limit)`: empty
neighbour-adjacent cells scored `attack*1.2 + defense*1.8`, a
centre-distance bonus `*50`, and the forced-move bonuses.  `pc` is
`gameState.playerColor` (the human), the defender in this scoring. -/
def candScores (b : Board) (pc aiPlayer : ℕ) : List Cand :=
  allCells.filterMap fun c =>
    if getCell b c.1 c.2 = 0 ∧ hasNeighbor b c.1 c.2 2 = true then
      let attack := evaluatePoint b c.1 c.2 aiPlayer
      let defense := evaluatePoint b c.1 c.2 pc
      let centerBonus : ℤ := (7 - |c.1 - 7|) + (7 - |c.2 - 7|)
      let score : ℤ := (attack : ℤ) * 12 + (defense : ℤ) * 18
        + centerBonus * 500
        + (if SCORE_OPEN_FOUR ≤ attack ∨ SCORE_OPEN_FOUR ≤ defense then 10000000 else 0)
        + (if SCORE_SIMPLE_FOUR ≤ attack ∨ SCORE_SIMPLE_FOUR ≤ defense then 5000000 else 0)
        + (if SCORE_OPEN_THREE ≤ attack ∨ SCORE_OPEN_THREE ≤ defense then 1000000 else 0)
      some ⟨c.1, c.2, score⟩
    else none

/-- `getCandidatesImproved(aiPlayer, limit)` proper: the scores above,
sorted descending and cut to `limit`. -/
def getCandidatesImproved (b : Board) (pc aiPlayer : ℕ) (limit : ℕ) : List Cand :=
  (sortCandsDesc (candScores b pc aiPlayer)).take limit

/-- Alias `getCandidates` (the source delegates to the improved version). -/
def getCandidates (b : Board) (pc aiPlayer : ℕ) (limit : ℕ) : List Cand :=
  getCandidatesImproved b pc aiPlayer limit

/-- Static evaluation `evaluateBoard(aiPlayer)` used by the hard-tier
minimax: position values for stones, residual attack/defense differential
`attack*0.8 - defense` for empty neighbour-adjacent cells. -/
def evaluateBoard (b : Board) (pc aiPlayer : ℕ) : ℤ :=
  (allCells.map fun c =>
    if getCell b c.1 c.2 = aiPlayer then 10 * (evaluatePosition b c.1 c.2 aiPlayer : ℤ)
    else if getCell b c.1 c.2 = pc then -(10 * (evaluatePosition b c.1 c.2 pc : ℤ))
    else if hasNeighbor b c.1 c.2 2 then
      (evaluatePoint b c.1 c.2 aiPlayer : ℤ) * 8
        - (evaluatePoint b c.1 c.2 pc : ℤ) * 10
    else 0).sum

/-- Detailed threat statistics `countThreatsDetailed(player)`:
(liveFour, rushFour, liveThree, sleepThree) axis counts over all empty
neighbour-adjacent cells, with the else-if threshold chain. -/
def countThreatsDetailed (b : Board) (player : ℕ) : ℕ × ℕ × ℕ × ℕ :=
  let cells := allCells.filter fun c =>
    decide (getCell b c.1 c.2 = 0) && hasNeighbor b c.1 c.2 2
  let scores := cells.flatMap fun c => lineScores b c.1 c.2 player
  (scores.countP fun s => decide (SCORE_OPEN_FOUR ≤ s),
   scores.countP fun s => decide (¬ SCORE_OPEN_FOUR ≤ s ∧ SCORE_SIMPLE_FOUR ≤ s),
   scores.countP fun s => decide (¬ SCORE_SIMPLE_FOUR ≤ s ∧ SCORE_OPEN_THREE ≤ s),
   scores.countP fun s => decide (¬ SCORE_OPEN_THREE ≤ s ∧ SCORE_SIMPLE_THREE ≤ s))

/-- Hell-tier static evaluation `evaluateBoardHell(aiPlayer)`.  The decimal
weight products are written with their exact values (e.g.
`SCORES.LIVE_FOUR*0.8 = 80000`, `SCORES.LIVE_THREE*0.3 = 240`). -/
def evaluateBoardHell (b : Board) (pc aiPlayer : ℕ) : ℤ :=
  let base := (allCells.map fun c =>
    if getCell b c.1 c.2 = aiPlayer then
      10 * (evaluatePosition b c.1 c.2 aiPlayer : ℤ)
        + ((7 - |c.1 - 7|) * 200 + (7 - |c.2 - 7|) * 200)
    else if getCell b c.1 c.2 = pc then
      -((evaluatePosition b c.1 c.2 pc : ℤ) * 13)
        - ((7 - |c.1 - 7|) * 200 + (7 - |c.2 - 7|) * 200)
    else if hasNeighbor b c.1 c.2 2 then
      (evaluatePoint b c.1 c.2 aiPlayer : ℤ) * 6
        - (evaluatePoint b c.1 c.2 pc : ℤ) * 8
    else 0).sum
  let mt := countThreatsDetailed b aiPlayer
  let ot := countThreatsDetailed b pc
  base
    + (mt.1 : ℤ) * 800000 + (mt.2.1 : ℤ) * 50000 + (mt.2.2.1 : ℤ) * 2400
    + (mt.2.2.2 : ℤ) * 100
    - (ot.1 : ℤ) * 1000000 - (ot.2.1 : ℤ) * 70000 - (ot.2.2.1 : ℤ) * 4000
    - (ot.2.2.2 : ℤ) * 200
    + (if 2 ≤ mt.2.1 then 600000 else 0)
    + (if 1 ≤ mt.2.1 ∧ 1 ≤ mt.2.2.1 then 500000 else 0)
    + (if 2 ≤ mt.2.2.1 then 80000 else 0)
    - (if 2 ≤ ot.2.1 then 800000 else 0)
    - (if 1 ≤ ot.2.1 ∧ 1 ≤ ot.2.2.1 then 700000 else 0)
    - (if 2 ≤ ot.2.2.1 then 100000 else 0)

/-- Maximizing branch of the alpha-beta loop: place the candidate for
`pl`, recurse through `f`, retract, update `maxScore`/`alpha`, and break
once `beta <= alpha`. -/
def mmLoopMax (f : Board → XQ → XQ → XQ × Board) (pl : ℕ) :
    List Cand → Board → XQ → XQ → XQ → XQ × Board
  | [], b, _, _, mx => (mx, b)
  | c :: rest, b, α, β, mx =>
    let b1 := setCell b c.x c.y pl
    let r := f b1 α β
    let b2 := setCell r.2 c.x c.y 0
    let mx2 := XQ.qmax mx r.1
    let α2 := XQ.qmax α r.1
    if XQ.ble β α2 then (mx2, b2)
    else mmLoopMax f pl rest b2 α2 β mx2

/-- Minimizing branch of the alpha-beta loop. -/
def mmLoopMin (f : Board → XQ → XQ → XQ × Board) (pl : ℕ) :
    List Cand → Board → XQ → XQ → XQ → XQ × Board
  | [], b, _, _, mn => (mn, b)
  | c :: rest, b, α, β, mn =>
    let b1 := setCell b c.x c.y pl
    let r := f b1 α β
    let b2 := setCell r.2 c.x c.y 0
    let mn2 := XQ.qmin mn r.1
    let β2 := XQ.qmin β r.1
    if XQ.ble β2 α then (mn2, b2)
    else mmLoopMin f pl rest b2 α β2 mn2

/-- Candidate list expanded at every node of `minimax`: the top
`HARD_AI.SEARCH_LIMIT = 12` candidates framed with `aiPlayer` as attacker
and the human `pc` as defender, for maximizing and minimizing nodes
alike. -/
def minimaxCands (b : Board) (pc aiPlayer : ℕ) : List Cand :=
  getCandidates b pc aiPlayer 12

/-- Hard-tier `minimax(depth, alpha, beta, isMaximizing, aiPlayer)`.
The board is threaded explicitly: the second component of the result is
the board state at exit, mirroring the in-place mutate/retract discipline
of the source.  `HARD_AI.WIN_SCORE = SCORES.FIVE * 10 = 10000000`. -/
def minimax (pc aiPlayer : ℕ) : ℕ → Board → XQ → XQ → Bool → XQ × Board
  | 0, b, _, _, _ =>
    if hasImmediateWin b aiPlayer then (XQ.val (100000000 + 10 * (0 : ℤ)), b)
    else if hasImmediateWin b pc then (XQ.val (-100000000 - 10 * (0 : ℤ)), b)
    else (XQ.val (evaluateBoard b pc aiPlayer), b)
  | d + 1, b, α, β, isMax =>
    if hasImmediateWin b aiPlayer then (XQ.val (100000000 + 10 * ((d + 1 : ℕ) : ℤ)), b)
    else if hasImmediateWin b pc then (XQ.val (-100000000 - 10 * ((d + 1 : ℕ) : ℤ)), b)
    else
      if minimaxCands b pc aiPlayer = [] then
        (XQ.val (evaluateBoard b pc aiPlayer), b)
      else if isMax then
        mmLoopMax (fun b2 α2 β2 => minimax pc aiPlayer d b2 α2 β2 false)
          aiPlayer (minimaxCands b pc aiPlayer) b α β XQ.negInf
      else
        mmLoopMin (fun b2 α2 β2 => minimax pc aiPlayer d b2 α2 β2 true)
          pc (minimaxCands b pc aiPlayer) b α β XQ.posInf

/-- Hell-tier `minimaxHellImproved`: same skeleton with
`HELL_AI.SEARCH_LIMIT = 15` candidates and the hell evaluation. -/
def minimaxHellImproved (pc aiPlayer : ℕ) : ℕ → Board → XQ → XQ → Bool → XQ × Board
  | 0, b, _, _, _ =>
    if hasImmediateWin b aiPlayer then (XQ.val (100000000 + 10 * (0 : ℤ)), b)
    else if hasImmediateWin b pc then (XQ.val (-100000000 - 10 * (0 : ℤ)), b)
    else (XQ.val (evaluateBoardHell b pc aiPlayer), b)
  | d + 1, b, α, β, isMax =>
    if hasImmediateWin b aiPlayer then (XQ.val (100000000 + 10 * ((d + 1 : ℕ) : ℤ)), b)
    else if hasImmediateWin b pc then (XQ.val (-100000000 - 10 * ((d + 1 : ℕ) : ℤ)), b)
    else
      if getCandidatesImproved b pc aiPlayer 15 = [] then
        (XQ.val (evaluateBoardHell b pc aiPlayer), b)
      else if isMax then
        mmLoopMax (fun b2 α2 β2 => minimaxHellImproved pc aiPlayer d b2 α2 β2 false)
          aiPlayer (getCandidatesImproved b pc aiPlayer 15) b α β XQ.negInf
      else
        mmLoopMin (fun b2 α2 β2 => minimaxHellImproved pc aiPlayer d b2 α2 β2 true)
          pc (getCandidatesImproved b pc aiPlayer 15) b α β XQ.posInf

/-- Root loop of `hardMinimax` / `hellMinimaxImproved`: try each candidate
for `pl`, recurse, retract, keep the first strict improvement. -/
def bestMoveLoop (f : Board → XQ × Board) (pl : ℕ) :
    List Cand → Board → Option (ℤ × ℤ) → XQ → Option (ℤ × ℤ) × Board
  | [], b, best, _ => (best, b)
  | c :: rest, b, best, bs =>
    let b1 := setCell b c.x c.y pl
    let r := f b1
    let b2 := setCell r.2 c.x c.y 0
    if XQ.blt bs r.1 then bestMoveLoop f pl rest b2 (some (c.x, c.y)) r.1
    else bestMoveLoop f pl rest b2 best bs

/-- Hard-tier root search `hardMinimax(aiPlayer)`:
`HARD_AI.CANDIDATE_LIMIT = 15` root candidates, depth
`HARD_AI.SEARCH_DEPTH - 1 = 3` below each. -/
def hardMinimax (b : Board) (pc aiPlayer : ℕ) : ℤ × ℤ :=
  ((bestMoveLoop
    (fun b1 => minimax pc aiPlayer 3 b1 XQ.negInf XQ.posInf false)
    aiPlayer (getCandidatesImproved b pc aiPlayer 15) b none XQ.negInf).1).getD (7, 7)

/-- Hell-tier root search `hellMinimaxImproved(aiPlayer)`:
`HELL_AI.CANDIDATE_LIMIT = 18` root candidates, depth
`HELL_AI.SEARCH_DEPTH - 1 = 5` below each. -/
def hellMinimaxImproved (b : Board) (pc aiPlayer : ℕ) : ℤ × ℤ :=
  ((bestMoveLoop
    (fun b1 => minimaxHellImproved pc aiPlayer 5 b1 XQ.negInf XQ.posInf false)
    aiPlayer (getCandidatesImproved b pc aiPlayer 18) b none XQ.negInf).1).getD (7, 7)

/-- Inner defence loop of `searchVCFImproved`: place each defence stone
for the opponent, recurse through `f`, retract; `false` (with break) as
soon as some defence refutes the attack. -/
def vcfDefenseLoop (f : Board → Option (ℤ × ℤ) × Board) (opp : ℕ) :
    List (ℤ × ℤ) → Board → Bool × Board
  | [], b => (true, b)
  | dp :: rest, b =>
    let b1 := setCell b dp.1 dp.2 opp
    let r := f b1
    let b2 := setCell r.2 dp.1 dp.2 0
    if r.1.isNone then (false, b2)
    else vcfDefenseLoop f opp rest b2

/-- Rush-four move loop of `searchVCFImproved`: place the attacking move;
if it completes five, report it; otherwise require every defence point to
fail. -/
def vcfMoveLoop (f : Board → Option (ℤ × ℤ) × Board) (player opp : ℕ) :
    List Cand → Board → Option (ℤ × ℤ) × Board
  | [], b => (none, b)
  | m :: rest, b =>
    let b1 := setCell b m.x m.y player
    if checkWinWithoutState b1 m.x m.y player then
      (some (m.x, m.y), setCell b1 m.x m.y 0)
    else
      let dps := findAllDefensePoints b1 player
      let r := vcfDefenseLoop f opp dps b1
      let b2 := setCell r.2 m.x m.y 0
      if r.1 = true ∧ dps ≠ [] then (some (m.x, m.y), b2)
      else vcfMoveLoop f player opp rest b2

/-- Recursive body `vcfSearch(depth, isAttacker)` of `searchVCFImproved`
(every call in the source passes `isAttacker = true`). -/
def vcfSearch (player opp : ℕ) : ℕ → Bool → Board → Option (ℤ × ℤ) × Board
  | 0, _, b => (none, b)
  | d + 1, isAttacker, b =>
    if hasImmediateWin b player then (findImmediateWin b player, b)
    else if isAttacker then
      vcfMoveLoop (fun b1 => vcfSearch player opp d true b1) player opp
        (findAllRushFoursImproved b player) b
    else (none, b)

/-- VCF entry point `searchVCFImproved(player, maxDepth)`. -/
def searchVCFImproved (b : Board) (player : ℕ) (maxDepth : ℕ) :
    Option (ℤ × ℤ) × Board :=
  let opp := if player = 1 then 2 else 1
  vcfSearch player opp maxDepth true b

/-- Threat loop of `searchVCTImproved`: place a threat move, test for an
unconditional winning shape, retract. -/
def vctLoop (player : ℕ) : List Cand → Board → Option (ℤ × ℤ) × Board
  | [], b => (none, b)
  | m :: rest, b =>
    let b1 := setCell b m.x m.y player
    let hasWin :=
      (findThreat b1 player SCORE_OPEN_FOUR).isSome ||
      (findDoubleRushFour b1 player).isSome ||
      (findFourThreeCombo b1 player).isSome ||
      (findDoubleThree b1 player).isSome
    let b2 := setCell b1 m.x m.y 0
    if hasWin then (some (m.x, m.y), b2)
    else vctLoop player rest b2

/-- VCT entry point `searchVCTImproved(player, maxDepth)` (the depth
argument is unused by the source body; only the top 8 threats are
tried). -/
def searchVCTImproved (b : Board) (player : ℕ) (_maxDepth : ℕ) :
    Option (ℤ × ℤ) × Board :=
  vctLoop player ((findAllThreatsImproved b player).take 8) b

/-- One history entry `{x, y, player}`. -/
structure HMove where
  x : ℤ
  y : ℤ
  player : ℕ
deriving DecidableEq

/-- Opening book first move (`OPENING_BOOK.first`). -/
def OPENING_BOOK_first : ℤ × ℤ := (7, 7)

/-- Opening book responses (`OPENING_BOOK.responses`): condition cells and
the reply move. -/
def OPENING_BOOK_responses : List (List (ℤ × ℤ) × (ℤ × ℤ)) :=
  [([(7, 7)], (8, 8)),
   ([(6, 7)], (7, 7)),
   ([(8, 7)], (7, 7)),
   ([(7, 6)], (7, 7)),
   ([(7, 8)], (7, 7))]

/-- The response-table loop inside `getHellMove` at move count 1: first
entry whose condition matches the opponent's first move and whose reply
cell is still empty. -/
def lookupResponse (b : Board) (fm : HMove) : Option (ℤ × ℤ) :=
  OPENING_BOOK_responses.findSome? fun resp =>
    if (resp.1.any fun q => decide (fm.x = q.1 ∧ fm.y = q.2)) &&
        decide (getCell b resp.2.1 resp.2.2 = 0) then some resp.2
    else none

/-- The 5×5 centre-region scan of `findBestOpeningMove`: empty cells with
a stone at Chebyshev distance 1, scored `attack + defense`. -/
def openingCands (b : Board) (pc aiPlayer : ℕ) : List Cand :=
  (offsetsList 2).filterMap fun o =>
    if getCell b (7 + o.1) (7 + o.2) = 0 ∧
        hasNeighbor b (7 + o.1) (7 + o.2) 1 = true then
      some (⟨7 + o.1, 7 + o.2,
        10 * ((evaluatePoint b (7 + o.1) (7 + o.2) aiPlayer
          + evaluatePoint b (7 + o.1) (7 + o.2) pc : ℕ) : ℤ)⟩ : Cand)
    else none

/-- Opening fallback `findBestOpeningMove(aiPlayer)`: the best
centre-region candidate, or the centre itself when none exists. -/
def findBestOpeningMove (b : Board) (pc aiPlayer : ℕ) : ℤ × ℤ :=
  if openingCands b pc aiPlayer = [] then (7, 7)
  else (((sortCandsDesc (openingCands b pc aiPlayer)).getD 0 ⟨7, 7, 0⟩).x,
        ((sortCandsDesc (openingCands b pc aiPlayer)).getD 0 ⟨7, 7, 0⟩).y)

/-- The candidate scan of `getEasyMove`: empty neighbour-adjacent cells
scored `attack + defense`. -/
def easyCands (b : Board) (pc aiPlayer : ℕ) : List Cand :=
  allCells.filterMap fun c =>
    if getCell b c.1 c.2 = 0 ∧ hasNeighbor b c.1 c.2 2 = true then
      some (⟨c.1, c.2,
        10 * ((evaluatePoint b c.1 c.2 aiPlayer + evaluatePoint b c.1 c.2 pc : ℕ) : ℤ)⟩ : Cand)
    else none

/-- Easy tier `getEasyMove(aiPlayer)`.  The `Math.random()` draws are
passed in: `r1` is the 80% branch test, `r2` drives the top-3 pick
(`Math.floor(Math.random() * topN)` is modelled by `r2 % topN`). -/
def getEasyMove (b : Board) (pc aiPlayer : ℕ) (r1 : Bool) (r2 : ℕ) : ℤ × ℤ :=
  match findImmediateWin b aiPlayer with
  | some m => m
  | none =>
  match findImmediateWin b pc with
  | some m => m
  | none =>
  match findThreat b aiPlayer SCORE_OPEN_FOUR with
  | some m => m
  | none =>
  match findThreat b pc SCORE_OPEN_FOUR with
  | some m => m
  | none =>
    if easyCands b pc aiPlayer = [] then (7, 7)
    else if r1 then
      (((sortCandsDesc (easyCands b pc aiPlayer)).getD 0 ⟨7, 7, 0⟩).x,
       ((sortCandsDesc (easyCands b pc aiPlayer)).getD 0 ⟨7, 7, 0⟩).y)
    else
      (((sortCandsDesc (easyCands b pc aiPlayer)).getD
          (r2 % min 3 (easyCands b pc aiPlayer).length) ⟨7, 7, 0⟩).x,
       ((sortCandsDesc (easyCands b pc aiPlayer)).getD
          (r2 % min 3 (easyCands b pc aiPlayer).length) ⟨7, 7, 0⟩).y)

/-- Best-score scan of `getMediumMove`: row-major argmax with strict
improvement (`score > bestScore` starting from `-Infinity`). -/
def argmaxScan (sc : (ℤ × ℤ) → Option ℤ) :
    List (ℤ × ℤ) → Option ((ℤ × ℤ) × ℤ) → Option ((ℤ × ℤ) × ℤ)
  | [], acc => acc
  | c :: rest, acc =>
    match sc c with
    | none => argmaxScan sc rest acc
    | some v =>
      match acc with
      | none => argmaxScan sc rest (some (c, v))
      | some (m, bs) =>
        if bs < v then argmaxScan sc rest (some (c, v))
        else argmaxScan sc rest (some (m, bs))

/-- The greedy score of `getMediumMove`: `attack*1.2 + defense` at empty
neighbour-adjacent cells, `none` elsewhere. -/
def mediumScore (b : Board) (pc aiPlayer : ℕ) (c : ℤ × ℤ) : Option ℤ :=
  if getCell b c.1 c.2 = 0 ∧ hasNeighbor b c.1 c.2 2 = true then
    some ((evaluatePoint b c.1 c.2 aiPlayer : ℤ) * 12
      + (evaluatePoint b c.1 c.2 pc : ℤ) * 10)
  else none

/-- Medium tier `getMediumMove(aiPlayer)`: threat cascade then greedy
`attack*1.2 + defense` argmax. -/
def getMediumMove (b : Board) (pc aiPlayer : ℕ) : ℤ × ℤ :=
  match findImmediateWin b aiPlayer with
  | some m => m
  | none =>
  match findImmediateWin b pc with
  | some m => m
  | none =>
  match findThreat b aiPlayer SCORE_OPEN_FOUR with
  | some m => m
  | none =>
  match findThreat b pc SCORE_OPEN_FOUR with
  | some m => m
  | none =>
    match argmaxScan (mediumScore b pc aiPlayer) allCells none with
    | some r => r.1
    | none => (7, 7)

/-- Hard tier `getHardMove(aiPlayer)`: threat cascade, combo detection,
then depth-4 minimax. -/
def getHardMove (b : Board) (pc aiPlayer : ℕ) : ℤ × ℤ :=
  match findImmediateWin b aiPlayer with
  | some m => m
  | none =>
  match findImmediateWin b pc with
  | some m => m
  | none =>
  match findThreat b aiPlayer SCORE_OPEN_FOUR with
  | some m => m
  | none =>
  match findThreat b pc SCORE_OPEN_FOUR with
  | some m => m
  | none =>
  match findThreat b aiPlayer SCORE_SIMPLE_FOUR with
  | some m => m
  | none =>
  match findDoubleRushFour b aiPlayer with
  | some m => m
  | none =>
  match findFourThreeCombo b aiPlayer with
  | some m => m
  | none =>
  match findDoubleThree b aiPlayer with
  | some m => m
  | none =>
  match findDoubleRushFour b pc with
  | some m => m
  | none =>
  match findFourThreeCombo b pc with
  | some m => m
  | none =>
  match findDoubleThree b pc with
  | some m => m
  | none => hardMinimax b pc aiPlayer

/-- Hell tier `getHellMove(aiPlayer)`: opening book for move counts 0/1,
then the threat cascade, combo detection, VCF depth 8, VCT depth 4, and
depth-6 minimax. -/
def getHellMove (b : Board) (hist : List HMove) (pc aiPlayer : ℕ) : ℤ × ℤ :=
  if hist.length = 0 then OPENING_BOOK_first
  else if hist.length = 1 then
    match lookupResponse b (hist.getD 0 ⟨0, 0, 0⟩) with
    | some m => m
    | none => findBestOpeningMove b pc aiPlayer
  else
  match findImmediateWin b aiPlayer with
  | some m => m
  | none =>
  match findImmediateWin b pc with
  | some m => m
  | none =>
  match findThreat b aiPlayer SCORE_OPEN_FOUR with
  | some m => m
  | none =>
  match findThreat b pc SCORE_OPEN_FOUR with
  | some m => m
  | none =>
  match findDoubleRushFour b aiPlayer with
  | some m => m
  | none =>
  match findFourThreeCombo b aiPlayer with
  | some m => m
  | none =>
  match findDoubleThree b aiPlayer with
  | some m => m
  | none =>
  match findDoubleRushFour b pc with
  | some m => m
  | none =>
  match findFourThreeCombo b pc with
  | some m => m
  | none =>
  match findDoubleThree b pc with
  | some m => m
  | none =>
  match (searchVCFImproved b aiPlayer 8).1 with
  | some m => m
  | none =>
  match (searchVCTImproved b aiPlayer 4).1 with
  | some m => m
  | none => hellMinimaxImproved b pc aiPlayer

/-- Game mode (`'pvp'` / `'pve'`). -/
inductive GameMode where
  | pvp : GameMode
  | pve : GameMode
deriving DecidableEq

/-- Difficulty tier. -/
inductive Difficulty where
  | easy : Difficulty
  | medium : Difficulty
  | hard : Difficulty
  | hell : Difficulty
deriving DecidableEq

/-- The mutable `gameState` object.  `reportedWinner` records the argument
of the `showResult(winner)` UI call (0 = draw). -/
structure GState where
  board : Board
  history : List HMove
  currentPlayer : ℕ
  gameOver : Bool
  winningLine : List (ℤ × ℤ)
  gameMode : GameMode
  difficulty : Difficulty
  playerColor : ℕ
  isAiThinking : Bool
  reportedWinner : Option ℕ
deriving DecidableEq

/-- Turn guard `canPlayerMove()`. -/
def canPlayerMove (st : GState) : Bool :=
  if st.gameOver then false
  else if st.isAiThinking then false
  else if st.gameMode = GameMode.pve ∧ st.currentPlayer ≠ st.playerColor then false
  else true

/-- Move application `placePiece(x, y, isAI)`: rejects occupied cells and
finished games, places the stone, appends to the history, then either
declares the win, declares the full-board draw, or passes the turn.  The
asynchronous `aiMove()` scheduling at the end is a presentation-side
effect with no synchronous state change and is not modelled. -/
def placePiece (st : GState) (x y : ℤ) (isAI : Bool) : GState × Bool :=
  if st.gameOver = true ∨ getCell st.board x y ≠ 0 then (st, false)
  else if isAI = false ∧ canPlayerMove st = false then (st, false)
  else
    let b1 := setCell st.board x y st.currentPlayer
    let hist1 := st.history ++ [⟨x, y, st.currentPlayer⟩]
    let st1 := { st with board := b1, history := hist1 }
    match checkWin b1 x y st.currentPlayer with
    | some line =>
      ({ st1 with
          gameOver := true,
          winningLine := line,
          reportedWinner := some st.currentPlayer }, true)
    | none =>
      if hist1.length = 225 then
        ({ st1 with gameOver := true, reportedWinner := some 0 }, true)
      else
        ({ st1 with currentPlayer := if st.currentPlayer = 1 then 2 else 1 }, true)

/-- Colour of the computer player (`getAIPlayer()`). -/
def getAIPlayer (pc : ℕ) : ℕ := if pc = 1 then 2 else 1

/-- Tier dispatch `getAIMove()`; `r1`, `r2` feed the easy tier's random
draws. -/
def getAIMove (st : GState) (r1 : Bool) (r2 : ℕ) : ℤ × ℤ :=
  let ai := getAIPlayer st.playerColor
  match st.difficulty with
  | .easy => getEasyMove st.board st.playerColor ai r1 r2
  | .medium => getMediumMove st.board st.playerColor ai
  | .hard => getHardMove st.board st.playerColor ai
  | .hell => getHellMove st.board st.history st.playerColor ai

/-- Claim-side property for C2 along one axis: some block of 5 consecutive
cells along `d` containing `(x, y)` (offsets `j..j+4` with `-4 ≤ j ≤ 0`)
consists entirely of `p` stones — i.e. a contiguous run of length ≥ 5
through `(x, y)`. -/
def winSpecAt (b : Board) (x y : ℤ) (p : ℕ) (d : ℤ × ℤ) : Prop :=
  ∃ j : ℤ, -4 ≤ j ∧ j ≤ 0 ∧ ∀ i : ℤ, j ≤ i → i ≤ j + 4 →
    getCell b (x + d.1 * i) (y + d.2 * i) = p

/-- Claim-side property for C2: some axis has a contiguous run of 5 or
more `p` stones through `(x, y)`. -/
def winSpec (b : Board) (x y : ℤ) (p : ℕ) : Prop :=
  ∃ d ∈ dirs, winSpecAt b x y p d

/-- All-empty board (the `restartGame` initial state). -/
def emptyBoard : Board := List.replicate 15 (List.replicate 15 0)

/-- Concrete board for the C2 witness: a five of player 1 on row `y = 3`,
columns 3–7. -/
def bC2w : Board :=
  setCell (setCell (setCell (setCell (setCell emptyBoard
    3 3 1) 4 3 1) 5 3 1) 6 3 1) 7 3 1

/-- Concrete board for the C7 witness: placing player 1 at (7, 7)
completes gapped rush-fours on the horizontal and vertical axes, while
placing at (2, 2) completes exactly one rush-four. -/
def bC7w : Board :=
  setCell (setCell (setCell (setCell (setCell (setCell (setCell (setCell
    (setCell emptyBoard
    8 7 1) 10 7 1) 11 7 1)
    7 8 1) 7 10 1) 7 11 1)
    3 2 1) 5 2 1) 6 2 1

/-- Concrete board for the C10 witness: every cell occupied except
`(0, 0)`, with opponent stones at `(1, 0)`, `(0, 1)` and `(1, 1)` so that
filling `(0, 0)` with player 1 completes no five. -/
def bC10w : Board :=
  (0 :: 2 :: List.replicate 13 1) ::
  (2 :: 2 :: List.replicate 13 1) ::
  List.replicate 13 (List.replicate 15 1)

/-- Concrete game state for the C10 witness: 224 plies played, player 1
to move on `bC10w`. -/
def stC10 : GState :=
  { board := bC10w,
    history := List.replicate 224 ⟨0, 0, 1⟩,
    currentPlayer := 1,
    gameOver := false,
    winningLine := [],
    gameMode := GameMode.pvp,
    difficulty := Difficulty.easy,
    playerColor := 1,
    isAiThinking := false,
    reportedWinner := none }

/-- A cell placement that wins on the spot: an in-bounds empty cell whose
occupation by `p` passes the stateless win check. -/
def winningPlacement (b : Board) (p : ℕ) (m : ℤ × ℤ) : Prop :=
  inB m.1 m.2 = true ∧ getCell b m.1 m.2 = 0 ∧
    checkWinB (setCell b m.1 m.2 p) m.1 m.2 p = true

/-- A returned move references an in-bounds empty cell. -/
def moveOK (b : Board) (m : ℤ × ℤ) : Prop :=
  inB m.1 m.2 = true ∧ getCell b m.1 m.2 = 0

/-- Some empty in-bounds cell with a stone within Chebyshev distance 2
exists: the eligibility condition shared by every candidate scan. -/
def candExists (b : Board) : Prop :=
  ∃ c : ℤ × ℤ, inB c.1 c.2 = true ∧ getCell b c.1 c.2 = 0 ∧
    hasNeighbor b c.1 c.2 2 = true

/-- Board for the C1 witness: player 2 has an open four on row `y = 5`
(columns 5–8); player 1 has three stones on row `y = 1` and one at
`(12, 12)`.  Placing player 2 at `(4, 5)` or `(9, 5)` wins. -/
def bWin : Board :=
  setCell (setCell (setCell (setCell (setCell (setCell (setCell (setCell
    emptyBoard
    5 5 2) 6 5 2) 7 5 2) 8 5 2)
    1 1 1) 2 1 1) 3 1 1) 12 12 1

/-- History for the C1 witness: eight plies, matching the eight stones of
`bWin`. -/
def histWin : List HMove := List.replicate 8 ⟨0, 0, 1⟩

/-- Board for the C6 scenario: empty except the opponent's first stone at
`(3, 3)`. -/
def b33 : Board := setCell emptyBoard 3 3 1

/-- History for the C6 scenario: the single opponent move `(3, 3)`. -/
def hist33 : List HMove := [⟨3, 3, 1⟩]

/-- Concrete game state for the C9 witness: the easy tier asked to move
on `b33` after the single ply `(3, 3)`. -/
def stC9 : GState :=
  { board := b33,
    history := hist33,
    currentPlayer := 2,
    gameOver := false,
    winningLine := [],
    gameMode := GameMode.pve,
    difficulty := Difficulty.easy,
    playerColor := 1,
    isAiThinking := false,
    reportedWinner := none }

theorem inB_iff {x y : ℤ} : inB x y = true ↔ 0 ≤ x ∧ x < 15 ∧ 0 ≤ y ∧ y < 15 := by
  simp [inB]

theorem mem_allCells {c : ℤ × ℤ} : c ∈ allCells ↔ inB c.1 c.2 = true := by
  obtain ⟨x, y⟩ := c
  constructor
  · intro h
    rw [allCells] at h
    obtain ⟨i, hi, h2⟩ := List.mem_flatMap.mp h
    obtain ⟨j, hj, h3⟩ := List.mem_map.mp h2
    rw [List.mem_range] at hi hj
    rw [Prod.mk.injEq] at h3
    obtain ⟨h4, h5⟩ := h3
    rw [inB_iff]
    omega
  · intro h
    rw [inB_iff] at h
    obtain ⟨hx0, hx, hy0, hy⟩ := h
    rw [allCells]
    refine List.mem_flatMap.mpr ⟨x.toNat, List.mem_range.mpr (by omega),
      List.mem_map.mpr ⟨y.toNat, List.mem_range.mpr (by omega), ?_⟩⟩
    rw [Prod.mk.injEq]
    exact ⟨Int.toNat_of_nonneg hx0, Int.toNat_of_nonneg hy0⟩

theorem getCell_oob {b : Board} {x y : ℤ} (h : inB x y = false) : getCell b x y = 0 := by
  simp [getCell, h]

theorem inB_of_getCell_ne {b : Board} {x y : ℤ} (h : getCell b x y ≠ 0) :
    inB x y = true := by
  by_cases hb : inB x y = true
  · exact hb
  · exact absurd (getCell_oob (by simpa using hb)) h

theorem getD_set_self {α : Type} (l : List α) (i : ℕ) (v d : α) :
    (l.set i v).getD i d = if i < l.length then v else d := by
  rw [List.getD_eq_getElem?_getD, List.getElem?_set]
  by_cases hi : i < l.length <;> simp [hi]

theorem getD_set_ne {α : Type} (l : List α) {i j : ℕ} (h : i ≠ j) (v : α) (d : α) :
    (l.set i v).getD j d = l.getD j d := by
  rw [List.getD_eq_getElem?_getD, List.getElem?_set, if_neg h,
    List.getD_eq_getElem?_getD]

theorem set_getD_self {α : Type} (l : List α) (i : ℕ) (d : α) :
    l.set i (l.getD i d) = l := by
  apply List.ext_getElem
  · simp
  · intro n h1 h2
    rw [List.getElem_set]
    split
    · next heq =>
      subst heq
      rw [List.getD_eq_getElem?_getD, List.getElem?_eq_getElem h2, Option.getD_some]
    · rfl

theorem getCell_setCell_ne {b : Board} {x y u v : ℤ} {w : ℕ}
    (h : (u, v) ≠ (x, y)) : getCell (setCell b x y w) u v = getCell b u v := by
  classical
  by_cases hxy : inB x y = true
  · by_cases huv : inB u v = true
    · simp only [getCell, setCell, hxy, huv, if_true]
      by_cases hx : x.toNat = u.toNat
      · have hyv : y.toNat ≠ v.toNat := by
          intro hyv
          apply h
          have e1 := Int.toNat_of_nonneg (inB_iff.mp hxy).1
          have e2 := Int.toNat_of_nonneg (inB_iff.mp huv).1
          have e3 := Int.toNat_of_nonneg (inB_iff.mp hxy).2.2.1
          have e4 := Int.toNat_of_nonneg (inB_iff.mp huv).2.2.1
          rw [Prod.mk.injEq]
          omega
        rw [← hx, getD_set_self]
        by_cases hxl : x.toNat < b.length
        · rw [if_pos hxl, getD_set_ne _ hyv]
        · rw [if_neg hxl]
          have hrow : b.getD x.toNat ([] : List ℕ) = [] := by
            rw [List.getD_eq_getElem?_getD]
            simp [List.getElem?_eq_none_iff.mpr (le_of_not_lt hxl)]
          rw [hrow]
      · rw [getD_set_ne _ hx]
    · simp [getCell, huv]
  · simp [setCell, hxy]

theorem setCell_setCell_cancel {b : Board} {x y : ℤ} {v : ℕ}
    (h : getCell b x y = 0) : setCell (setCell b x y v) x y 0 = b := by
  classical
  by_cases hb : inB x y = true
  · simp only [setCell, hb, if_true]
    by_cases hx : x.toNat < b.length
    · rw [getD_set_self, if_pos hx, List.set_set, List.set_set]
      have h0 : (b.getD x.toNat []).getD y.toNat 0 = 0 := by
        simpa [getCell, hb] using h
      conv_lhs => rw [show (0 : ℕ) = (b.getD x.toNat []).getD y.toNat 0 from h0.symm]
      rw [set_getD_self, set_getD_self]
    · have hnop : ∀ r : List ℕ, b.set x.toNat r = b := fun r =>
        List.set_eq_of_length_le (le_of_not_lt hx)
      rw [hnop, hnop]
  · simp [setCell, hb]

theorem startsWithSeq_iff {pat s : List LC} :
    startsWithSeq pat s = true ↔ ∃ r, s = pat ++ r := by
  induction pat generalizing s with
  | nil => simp [startsWithSeq]
  | cons a t ih =>
    cases s with
    | nil => simp [startsWithSeq]
    | cons c u =>
      simp only [startsWithSeq, Bool.and_eq_true, beq_iff_eq, ih, List.cons_append,
        List.cons.injEq]
      constructor
      · rintro ⟨rfl, r, rfl⟩
        exact ⟨r, rfl, rfl⟩
      · rintro ⟨r, rfl, rfl⟩
        exact ⟨rfl, r, rfl⟩

theorem containsSeq_iff {pat s : List LC} :
    containsSeq pat s = true ↔ ∃ l r, s = l ++ pat ++ r := by
  induction s with
  | nil =>
    simp only [containsSeq, startsWithSeq_iff]
    constructor
    · rintro ⟨r, h⟩
      exact ⟨[], r, by simpa using h⟩
    · rintro ⟨l, r, h⟩
      have hl : l = [] := by cases l <;> simp_all
      subst hl
      exact ⟨r, by simpa using h⟩
  | cons c u ih =>
    simp only [containsSeq, Bool.or_eq_true, startsWithSeq_iff, ih]
    constructor
    · rintro (⟨r, h⟩ | ⟨l, r, h⟩)
      · exact ⟨[], r, by simpa using h⟩
      · exact ⟨c :: l, r, by simp [h]⟩
    · rintro ⟨l, r, h⟩
      cases l with
      | nil =>
        exact Or.inl ⟨r, by simpa using h⟩
      | cons a t =>
        right
        refine ⟨t, r, ?_⟩
        have : c = a ∧ u = t ++ pat ++ r := by
          simpa using h
        simp [this.2]

theorem containsSeq_reverse {pat s : List LC} :
    containsSeq pat.reverse s.reverse = containsSeq pat s := by
  have h1 : ∀ pat' s' : List LC,
      containsSeq pat'.reverse s'.reverse = true → containsSeq pat' s' = true := by
    intro pat' s' h
    rw [containsSeq_iff] at h ⊢
    obtain ⟨l, r, h⟩ := h
    refine ⟨r.reverse, l.reverse, ?_⟩
    have := congrArg List.reverse h
    simpa [List.reverse_append] using this
  by_cases h : containsSeq pat s = true
  · rw [h]
    apply h1
    simpa [List.reverse_reverse] using h
  · have h2 : containsSeq pat.reverse s.reverse ≠ true := fun hc => h (h1 _ _ hc)
    have e1 : containsSeq pat s = false := by
      cases hb : containsSeq pat s
      · rfl
      · exact absurd hb h
    have e2 : containsSeq pat.reverse s.reverse = false := by
      cases hb : containsSeq pat.reverse s.reverse
      · rfl
      · exact absurd hb h2
    rw [e1, e2]

theorem mem_insertCandDesc {c d : Cand} {l : List Cand} :
    c ∈ insertCandDesc d l ↔ c = d ∨ c ∈ l := by
  induction l with
  | nil => simp [insertCandDesc]
  | cons e t ih =>
    rw [insertCandDesc]
    split_ifs with hlt
    · rw [List.mem_cons, ih, List.mem_cons]
      tauto
    · rw [List.mem_cons, List.mem_cons]

theorem mem_sortCandsDesc {l : List Cand} {c : Cand} :
    c ∈ sortCandsDesc l ↔ c ∈ l := by
  unfold sortCandsDesc
  induction l with
  | nil => simp
  | cons d t ih =>
    rw [List.foldr_cons, mem_insertCandDesc, ih, List.mem_cons]

theorem containsSeq_rev2 (pat s : List LC) :
    containsSeq pat s.reverse = containsSeq pat.reverse s := by
  have h := @containsSeq_reverse pat.reverse s
  rw [List.reverse_reverse] at h
  exact h

theorem matchesAny_reverse (pats : List (List LC)) (np : List LC) :
    matchesAny pats np.reverse = matchesAny (pats.map List.reverse) np := by
  unfold matchesAny
  induction pats with
  | nil => rfl
  | cons p rest ih =>
    simp only [List.any_cons, List.map_cons]
    rw [containsSeq_rev2 p np, ih]

theorem matchesAny_perm {pats1 qats2 : List (List LC)} (h : pats1.Perm qats2)
    (np : List LC) : matchesAny pats1 np = matchesAny qats2 np := by
  unfold matchesAny
  by_cases h1 : pats1.any (fun p => containsSeq p np) = true
  · rw [h1]
    obtain ⟨p, hp, hc⟩ := List.any_eq_true.mp h1
    exact (List.any_eq_true.mpr ⟨p, h.mem_iff.mp hp, hc⟩).symm
  · rw [Bool.eq_false_iff.mpr h1]
    by_cases h2 : qats2.any (fun p => containsSeq p np) = true
    · obtain ⟨p, hp, hc⟩ := List.any_eq_true.mp h2
      exact absurd (List.any_eq_true.mpr ⟨p, h.mem_iff.mpr hp, hc⟩) h1
    · rw [Bool.eq_false_iff.mpr h2]

theorem classifyScore_reverse (np : List LC) :
    classifyScore np.reverse = classifyScore np := by
  have e1 : matchesAny (([[.O, .O, .O, .O, .O]] : List (List LC)).map List.reverse) np
      = matchesAny [[.O, .O, .O, .O, .O]] np := matchesAny_perm (by decide) np
  have e2 : matchesAny (([[.E, .O, .O, .O, .O, .E],
      [.E, .O, .O, .O, .O, .X],
      [.X, .O, .O, .O, .O, .E]] : List (List LC)).map List.reverse) np
      = matchesAny [[.E, .O, .O, .O, .O, .E],
      [.E, .O, .O, .O, .O, .X],
      [.X, .O, .O, .O, .O, .E]] np := matchesAny_perm (by decide) np
  have e3 : matchesAny (([[.X, .O, .O, .O, .O, .E],
      [.E, .O, .O, .O, .O, .X],
      [.O, .O, .O, .E, .O],
      [.O, .O, .E, .O, .O],
      [.O, .E, .O, .O, .O]] : List (List LC)).map List.reverse) np
      = matchesAny [[.X, .O, .O, .O, .O, .E],
      [.E, .O, .O, .O, .O, .X],
      [.O, .O, .O, .E, .O],
      [.O, .O, .E, .O, .O],
      [.O, .E, .O, .O, .O]] np := matchesAny_perm (by decide) np
  have e4 : matchesAny (([[.E, .O, .O, .E, .O, .E],
      [.E, .O, .E, .O, .O, .E]] : List (List LC)).map List.reverse) np
      = matchesAny [[.E, .O, .O, .E, .O, .E],
      [.E, .O, .E, .O, .O, .E]] np := matchesAny_perm (by decide) np
  have e5 : matchesAny (([[.E, .O, .O, .O, .E]] : List (List LC)).map List.reverse) np
      = matchesAny [[.E, .O, .O, .O, .E]] np := matchesAny_perm (by decide) np
  have e6 : matchesAny (([[.X, .O, .O, .O, .E],
      [.E, .O, .O, .O, .X],
      [.O, .O, .E, .O],
      [.O, .E, .O, .O]] : List (List LC)).map List.reverse) np
      = matchesAny [[.X, .O, .O, .O, .E],
      [.E, .O, .O, .O, .X],
      [.O, .O, .E, .O],
      [.O, .E, .O, .O]] np := matchesAny_perm (by decide) np
  have e7 : matchesAny (([[.E, .O, .O, .E]] : List (List LC)).map List.reverse) np
      = matchesAny [[.E, .O, .O, .E]] np := matchesAny_perm (by decide) np
  have e8 : matchesAny (([[.X, .O, .O, .E],
      [.E, .O, .O, .X],
      [.O, .E, .O]] : List (List LC)).map List.reverse) np
      = matchesAny [[.X, .O, .O, .E],
      [.E, .O, .O, .X],
      [.O, .E, .O]] np := matchesAny_perm (by decide) np
  have e9 : matchesAny (([[.E, .O, .E]] : List (List LC)).map List.reverse) np
      = matchesAny [[.E, .O, .E]] np := matchesAny_perm (by decide) np
  unfold classifyScore
  simp only [matchesAny_reverse]
  rw [e1, e2, e3, e4, e5, e6, e7, e8, e9]

/-- Claim C4 (code_bug): for the window `XXXX_OOO_` (centre empty, placing
the stone yields the contiguous four `XOOOO_` with exactly one empty
extending end and no five), the classifier returns the OpenFour score
100000, not the SimpleFour score 10000 claimed by the spec — the
open-four regex list wrongly includes the one-ended patterns `_OOOOX` and
`XOOOO_`, which the simple-four branch (and its comment) also lists but
can never reach. -/
theorem claim_C4 :
    classifyPattern [.X, .X, .X, .X, .E, .O, .O, .O, .E] 4 = SCORE_OPEN_FOUR ∧
    SCORE_OPEN_FOUR ≠ SCORE_SIMPLE_FOUR ∧
    SCORE_SIMPLE_FOUR < SCORE_OPEN_FOUR := by
  decide

/-- Claim C8: for every 9-cell window with an empty centre, the pattern
classifier gives the same score to the window and to its 180°-rotated
(reversed) window. -/
theorem claim_C8 (p : List LC) (hlen : p.length = 9)
    (hc : p.getD 4 LC.X = LC.E) :
    classifyPattern p.reverse 4 = classifyPattern p 4 := by
  rcases p with _ | ⟨a0, p⟩
  · simp at hlen
  rcases p with _ | ⟨a1, p⟩
  · simp at hlen
  rcases p with _ | ⟨a2, p⟩
  · simp at hlen
  rcases p with _ | ⟨a3, p⟩
  · simp at hlen
  rcases p with _ | ⟨a4, p⟩
  · simp at hlen
  rcases p with _ | ⟨a5, p⟩
  · simp at hlen
  rcases p with _ | ⟨a6, p⟩
  · simp at hlen
  rcases p with _ | ⟨a7, p⟩
  · simp at hlen
  rcases p with _ | ⟨a8, p⟩
  · simp at hlen
  rcases p with _ | ⟨a9, p⟩
  · have ha4 : a4 = LC.E := by simpa using hc
    subst ha4
    rw [show classifyPattern ([a0, a1, a2, a3, LC.E, a5, a6, a7, a8] : List LC).reverse 4
        = classifyScore [a8, a7, a6, a5, LC.O, a3, a2, a1, a0] from rfl,
      show classifyPattern ([a0, a1, a2, a3, LC.E, a5, a6, a7, a8] : List LC) 4
        = classifyScore [a0, a1, a2, a3, LC.O, a5, a6, a7, a8] from rfl]
    exact classifyScore_reverse [a0, a1, a2, a3, LC.O, a5, a6, a7, a8]
  · simp at hlen

theorem stepOK_iff {b : Board} {x y dx dy : ℤ} {p : ℕ} {i : ℤ} :
    stepOK b x y dx dy p i = true ↔
      inB (x + dx * i) (y + dy * i) = true ∧
        getCell b (x + dx * i) (y + dy * i) = p := by
  simp [stepOK]

theorem countRun_le (b : Board) (x y dx dy : ℤ) (p : ℕ) :
    countRun b x y dx dy p ≤ 4 := by
  unfold countRun
  split_ifs <;> omega

theorem countRun_ok {b : Board} {x y dx dy : ℤ} {p : ℕ} {i : ℤ} (h1 : 1 ≤ i)
    (h2 : i ≤ (countRun b x y dx dy p : ℤ)) :
    stepOK b x y dx dy p i = true := by
  unfold countRun at h2
  split_ifs at h2 with s1 s2 s3 s4
  · push_cast at h2
    interval_cases i
    · exact s1
    · exact s2
    · exact s3
    · exact s4
  · push_cast at h2
    interval_cases i
    · exact s1
    · exact s2
    · exact s3
  · push_cast at h2
    interval_cases i
    · exact s1
    · exact s2
  · push_cast at h2
    interval_cases i
    · exact s1
  · push_cast at h2
    omega

theorem countRun_min {b : Board} {x y dx dy : ℤ} {p : ℕ} {m : ℕ} (hm : m ≤ 4)
    (h : ∀ i : ℤ, 1 ≤ i → i ≤ (m : ℤ) → stepOK b x y dx dy p i = true) :
    m ≤ countRun b x y dx dy p := by
  unfold countRun
  split_ifs with s1 s2 s3 s4
  · omega
  · rcases Nat.lt_or_ge m 4 with hm4 | hm4
    · omega
    · exact absurd (h 4 (by norm_num) (by exact_mod_cast hm4)) s4
  · rcases Nat.lt_or_ge m 3 with hm3 | hm3
    · omega
    · exact absurd (h 3 (by norm_num) (by exact_mod_cast hm3)) s3
  · rcases Nat.lt_or_ge m 2 with hm2 | hm2
    · omega
    · exact absurd (h 2 (by norm_num) (by exact_mod_cast hm2)) s2
  · rcases Nat.lt_or_ge m 1 with hm1 | hm1
    · omega
    · exact absurd (h 1 (by norm_num) (by exact_mod_cast hm1)) s1

theorem findSome?_isSome_iff {α β : Type} (f : α → Option β) (l : List α) :
    (l.findSome? f).isSome = true ↔ ∃ a ∈ l, (f a).isSome = true := by
  induction l with
  | nil => simp [List.findSome?]
  | cons a t ih =>
    rw [List.findSome?_cons]
    cases hfa : f a with
    | none => simp [hfa, ih]
    | some b => simp [hfa]

theorem findSome?_some_mem {α β : Type} {f : α → Option β} {l : List α} {b : β}
    (h : l.findSome? f = some b) : ∃ a ∈ l, f a = some b := by
  induction l with
  | nil => simp [List.findSome?] at h
  | cons a t ih =>
    rw [List.findSome?_cons] at h
    cases hfa : f a with
    | none =>
      rw [hfa] at h
      obtain ⟨a2, h2, h3⟩ := ih h
      exact ⟨a2, List.mem_cons_of_mem _ h2, h3⟩
    | some c =>
      rw [hfa] at h
      cases h
      exact ⟨a, List.mem_cons_self a t, hfa⟩

theorem dirWin_iff {b : Board} {x y : ℤ} {p : ℕ} (hp : p ≠ 0)
    (hc : getCell b x y = p) (d : ℤ × ℤ) :
    (5 ≤ countRun b x y (-d.1) (-d.2) p + 1 + countRun b x y d.1 d.2 p) ↔
      winSpecAt b x y p d := by
  constructor
  · intro h
    have hfle := countRun_le b x y d.1 d.2 p
    have hble := countRun_le b x y (-d.1) (-d.2) p
    rcases le_or_lt 4 (countRun b x y d.1 d.2 p : ℤ) with hf4 | hf4
    · refine ⟨0, by norm_num, by norm_num, fun i hi1 hi2 => ?_⟩
      rcases lt_trichotomy i 0 with hi | hi | hi
      · omega
      · subst hi
        simpa using hc
      · exact (stepOK_iff.mp (countRun_ok hi (by omega))).2
    · refine ⟨(countRun b x y d.1 d.2 p : ℤ) - 4, by omega, by omega,
        fun i hi1 hi2 => ?_⟩
      rcases lt_trichotomy i 0 with hi | hi | hi
      · have hstep := @countRun_ok b x y (-d.1) (-d.2) p (-i) (by omega) (by omega)
        have hcell := (stepOK_iff.mp hstep).2
        have harg1 : x + -d.1 * -i = x + d.1 * i := by ring
        have harg2 : y + -d.2 * -i = y + d.2 * i := by ring
        rwa [harg1, harg2] at hcell
      · subst hi
        simpa using hc
      · exact (stepOK_iff.mp (countRun_ok hi (by omega))).2
  · rintro ⟨j, hj1, hj2, hcell⟩
    have hfwd : ∀ i : ℤ, 1 ≤ i → i ≤ (((j + 4).toNat : ℕ) : ℤ) →
        stepOK b x y d.1 d.2 p i = true := by
      intro i hi1 hi2
      have hi2Z : i ≤ j + 4 := by omega
      have hcl := hcell i (by omega) hi2Z
      exact stepOK_iff.mpr ⟨inB_of_getCell_ne (hcl ▸ hp), hcl⟩
    have hbwd : ∀ i : ℤ, 1 ≤ i → i ≤ (((-j).toNat : ℕ) : ℤ) →
        stepOK b x y (-d.1) (-d.2) p i = true := by
      intro i hi1 hi2
      have hcl := hcell (-i) (by omega) (by omega)
      have harg1 : x + d.1 * -i = x + -d.1 * i := by ring
      have harg2 : y + d.2 * -i = y + -d.2 * i := by ring
      rw [harg1, harg2] at hcl
      exact stepOK_iff.mpr ⟨inB_of_getCell_ne (hcl ▸ hp), hcl⟩
    have h1 : (j + 4).toNat ≤ countRun b x y d.1 d.2 p :=
      countRun_min (by omega) hfwd
    have h2 : (-j).toNat ≤ countRun b x y (-d.1) (-d.2) p :=
      countRun_min (by omega) hbwd
    omega

/-- Claim C2: with the `p` stone at `(x, y)` on the board, `checkWin`
succeeds exactly when some axis holds a contiguous run of five or more
`p` stones through `(x, y)` (runs of 6+ included); `checkWinWithoutState`
agrees with it; and the recorded winning line has length ≥ 5, contains
`(x, y)`, consists of `p` stones, and is a consecutive segment along one
of the four axes. -/
theorem claim_C2 (b : Board) (x y : ℤ) (p : ℕ) (hp : p = 1 ∨ p = 2)
    (hc : getCell b x y = p) :
    ((checkWin b x y p).isSome = true ↔ winSpec b x y p) ∧
    (checkWinWithoutState b x y p = (checkWin b x y p).isSome) ∧
    (∀ L, checkWin b x y p = some L →
      5 ≤ L.length ∧ (x, y) ∈ L ∧ (∀ c ∈ L, getCell b c.1 c.2 = p) ∧
      ∃ d ∈ dirs, ∃ s : ℤ × ℤ, L = (List.range L.length).map
        fun (k : ℕ) => (s.1 + d.1 * (k : ℤ), s.2 + d.2 * (k : ℤ))) := by
  have hp0 : p ≠ 0 := by omega
  refine ⟨?_, ?_, ?_⟩
  · rw [checkWin, findSome?_isSome_iff]
    constructor
    · rintro ⟨d, hd, hopt⟩
      simp only at hopt
      split_ifs at hopt with hcond
      · exact ⟨d, hd, (dirWin_iff hp0 hc d).mp (by omega)⟩
      · simp at hopt
    · rintro ⟨d, hd, hws⟩
      refine ⟨d, hd, ?_⟩
      have hcond := (dirWin_iff hp0 hc d).mpr hws
      simp only
      rw [if_pos (by omega)]
      rfl
  · rw [checkWin, checkWinWithoutState]
    have hgen : ∀ l : List (ℤ × ℤ),
        (l.any fun d => decide (5 ≤ 1 + countRun b x y d.1 d.2 p
            + countRun b x y (-d.1) (-d.2) p))
          = (l.findSome? fun d =>
              let f := countRun b x y d.1 d.2 p
              let bk := countRun b x y (-d.1) (-d.2) p
              if 5 ≤ bk + 1 + f then some (runLineCells x y d.1 d.2 bk f)
              else none).isSome := by
      intro l
      induction l with
      | nil => rfl
      | cons d t ih =>
        rw [List.any_cons, List.findSome?_cons]
        by_cases hcnd : 5 ≤ countRun b x y (-d.1) (-d.2) p + 1
            + countRun b x y d.1 d.2 p
        · have hcnd2 : 5 ≤ 1 + countRun b x y d.1 d.2 p
              + countRun b x y (-d.1) (-d.2) p := by omega
          simp only
          rw [if_pos hcnd]
          simp [hcnd2]
        · have hcnd2 : ¬ (5 ≤ 1 + countRun b x y d.1 d.2 p
              + countRun b x y (-d.1) (-d.2) p) := by omega
          simp only
          rw [if_neg hcnd]
          simp only [Option.isSome_none] at ih ⊢
          rw [ih]
          simp [hcnd2]
    exact hgen dirs
  · intro L hL
    obtain ⟨d, hd, hopt⟩ := findSome?_some_mem hL
    simp only at hopt
    split_ifs at hopt with hcond
    · have hLrun : L = runLineCells x y d.1 d.2
          (countRun b x y (-d.1) (-d.2) p) (countRun b x y d.1 d.2 p) := by
        injection hopt with h
        exact h.symm
      subst hLrun
      set f := countRun b x y d.1 d.2 p with hf
      set bk := countRun b x y (-d.1) (-d.2) p with hbk
      have hlen : (runLineCells x y d.1 d.2 bk f).length = bk + 1 + f := by
        simp [runLineCells]
      refine ⟨by omega, ?_, ?_, ?_⟩
      · rw [runLineCells]
        refine List.mem_map.mpr ⟨bk, List.mem_range.mpr (by omega), ?_⟩
        simp
      · rintro c hcmem
        rw [runLineCells] at hcmem
        obtain ⟨k, hk, rfl⟩ := List.mem_map.mp hcmem
        rw [List.mem_range] at hk
        rcases lt_trichotomy ((k : ℤ) - (bk : ℤ)) 0 with hi | hi | hi
        · have hstep := @countRun_ok b x y (-d.1) (-d.2) p ((bk : ℤ) - (k : ℤ))
            (by omega) (by omega)
          have hcell := (stepOK_iff.mp hstep).2
          have harg1 : x + -d.1 * ((bk : ℤ) - (k : ℤ))
              = x + d.1 * ((k : ℤ) - (bk : ℤ)) := by ring
          have harg2 : y + -d.2 * ((bk : ℤ) - (k : ℤ))
              = y + d.2 * ((k : ℤ) - (bk : ℤ)) := by ring
          rwa [harg1, harg2] at hcell
        · rw [hi]
          simpa using hc
        · have hstep := @countRun_ok b x y d.1 d.2 p ((k : ℤ) - (bk : ℤ))
            (by omega) (by omega)
          exact (stepOK_iff.mp hstep).2
      · refine ⟨d, hd, (x - d.1 * (bk : ℤ), y - d.2 * (bk : ℤ)), ?_⟩
        rw [hlen, runLineCells]
        refine List.map_congr_left fun k hk => ?_
        rw [Prod.mk.injEq]
        constructor <;> ring

/-- Witness for claim C2: on the five-in-a-row board the win check
succeeds at (5, 3) and the claimed run property holds there. -/
theorem claim_C2_witness :
    (checkWin bC2w 5 3 1).isSome = true ∧ winSpec bC2w 5 3 1 := by
  have h := claim_C2 bC2w 5 3 1 (Or.inl rfl) (by decide)
  have hs : (checkWin bC2w 5 3 1).isSome = true := by decide
  exact ⟨hs, h.1.mp hs⟩

theorem classifyScore_mem (np : List LC) :
    classifyScore np ∈ [0, 5, 10, 50, 100, 800, 1000, 10000, 100000, 1000000] := by
  unfold classifyScore
  split_ifs <;> decide

theorem classifyPattern_mem (p : List LC) (c : ℕ) :
    classifyPattern p c ∈ [0, 5, 10, 50, 100, 800, 1000, 10000, 100000, 1000000] := by
  rw [classifyPattern]
  split
  · decide
  · exact classifyScore_mem _

theorem analyzeLinePattern_mem (b : Board) (x y dx dy : ℤ) (player : ℕ) :
    analyzeLinePattern b x y dx dy player
      ∈ [0, 5, 10, 50, 100, 800, 1000, 10000, 100000, 1000000] := by
  rw [analyzeLinePattern]
  exact classifyPattern_mem _ 4

theorem axisScores_mem {b : Board} {x y : ℤ} {player : ℕ} {s : ℕ}
    (h : s ∈ axisScores b x y player) :
    s ∈ [0, 5, 10, 50, 100, 800, 1000, 10000, 100000, 1000000] := by
  rw [axisScores] at h
  obtain ⟨d, _, rfl⟩ := List.mem_map.mp h
  exact analyzeLinePattern_mem ..

theorem mem_score_facts {s : ℕ}
    (h : s ∈ [0, 5, 10, 50, 100, 800, 1000, 10000, 100000, 1000000]) :
    (s < 100000 → s ≤ 10000) ∧ (s < 10000 → s ≤ 1000) := by
  simp only [List.mem_cons, List.not_mem_nil, or_false] at h
  rcases h with rfl | rfl | rfl | rfl | rfl | rfl | rfl | rfl | rfl | rfl <;> omega

theorem countP_mul_le_sum {l : List ℕ} {k : ℕ} {q : ℕ → Bool}
    (h : ∀ s ∈ l, q s = true → k ≤ s) : k * l.countP q ≤ l.sum := by
  induction l with
  | nil => simp
  | cons a t ih =>
    rw [List.countP_cons, List.sum_cons]
    have iht := ih fun s hs hq => h s (List.mem_cons_of_mem a hs) hq
    by_cases hq : q a = true
    · rw [if_pos hq]
      calc k * (t.countP q + 1) = k * t.countP q + k := by ring
        _ ≤ t.sum + a := add_le_add iht (h a (List.mem_cons_self a t) hq)
        _ = a + t.sum := by ring
    · rw [if_neg hq, add_zero]
      exact le_trans iht (Nat.le_add_left _ _)

theorem sum_le_of_countP {l : List ℕ} {q : ℕ → Bool} {X Y : ℕ}
    (hX : ∀ s ∈ l, q s = true → s ≤ X) (hY : ∀ s ∈ l, q s = false → s ≤ Y) :
    l.sum ≤ X * l.countP q + Y * (l.countP fun s => !(q s)) := by
  induction l with
  | nil => simp
  | cons a t ih =>
    rw [List.countP_cons, List.countP_cons, List.sum_cons]
    have iht := ih (fun s hs hq => hX s (List.mem_cons_of_mem a hs) hq)
      (fun s hs hq => hY s (List.mem_cons_of_mem a hs) hq)
    by_cases hq : q a = true
    · rw [if_pos hq, if_neg (by simp [hq])]
      have ha := hX a (List.mem_cons_self a t) hq
      calc a + t.sum
          ≤ X + (X * t.countP q + Y * (t.countP fun s => !(q s))) :=
            add_le_add ha iht
        _ = X * (t.countP q + 1) + Y * ((t.countP fun s => !(q s)) + 0) := by ring
    · rw [if_neg hq, if_pos (by simp [hq])]
      have ha := hY a (List.mem_cons_self a t) (by simpa using hq)
      calc a + t.sum
          ≤ Y + (X * t.countP q + Y * (t.countP fun s => !(q s))) :=
            add_le_add ha iht
        _ = X * (t.countP q + 0) + Y * ((t.countP fun s => !(q s)) + 1) := by ring

theorem axisScores_length (b : Board) (x y : ℤ) (player : ℕ) :
    (axisScores b x y player).length = 4 := by
  rw [axisScores]
  rfl

/-- Claim C7: an empty cell `A` completing rush-fours (SimpleFour band
scores) on at least two axes evaluates strictly higher for the player
than an empty cell `B` whose axes contain exactly one score at
rush-four strength or better and nothing at OpenFour strength or above:
the double-rush-four compound bonus (80000) dominates everything `B` can
accumulate. -/
theorem claim_C7 (b : Board) (xA yA xB yB : ℤ) (p : ℕ)
    (hA0 : getCell b xA yA = 0) (hB0 : getCell b xB yB = 0)
    (hA : 2 ≤ (axisScores b xA yA p).countP
      fun s => decide (¬ SCORE_OPEN_FOUR ≤ s ∧ SCORE_SIMPLE_FOUR ≤ s))
    (hB1 : (axisScores b xB yB p).countP
      (fun s => decide (SCORE_SIMPLE_FOUR ≤ s)) = 1)
    (hB2 : ∀ s ∈ axisScores b xB yB p, s < SCORE_OPEN_FOUR) :
    (evaluatePointAdvanced b xB yB p).1 < (evaluatePointAdvanced b xA yA p).1 := by
  have hBlt : (evaluatePointAdvanced b xB yB p).1 ≤ 92000 := by
    rw [evaluatePointAdvanced, if_neg (by simp [hB0])]
    simp only
    set l := axisScores b xB yB p with hl
    have hsum : l.sum ≤ 13000 := by
      have h1 : l.sum ≤ 10000 * l.countP (fun s => decide (SCORE_SIMPLE_FOUR ≤ s))
          + 1000 * (l.countP fun s => !(decide (SCORE_SIMPLE_FOUR ≤ s))) := by
        apply sum_le_of_countP
        · intro s hs hq
          have hf := (mem_score_facts (axisScores_mem (hl ▸ hs))).1
          have := hB2 s (hl ▸ hs)
          rw [SCORE_OPEN_FOUR] at this
          exact hf this
        · intro s hs hq
          have hf := (mem_score_facts (axisScores_mem (hl ▸ hs))).2
          have hlt : s < 10000 := by
            by_contra hge
            rw [decide_eq_false_iff_not] at hq
            exact hq (by rw [SCORE_SIMPLE_FOUR]; omega)
          exact le_trans (hf hlt) (by norm_num)
      have h2 : (l.countP fun s => !(decide (SCORE_SIMPLE_FOUR ≤ s))) ≤ 3 := by
        have hlen := axisScores_length b xB yB p
        have := List.length_eq_countP_add_countP
          (fun s => decide (SCORE_SIMPLE_FOUR ≤ s)) l
        have hcnot : (l.countP fun s => decide ¬(decide (SCORE_SIMPLE_FOUR ≤ s)) = true)
            = (l.countP fun s => !(decide (SCORE_SIMPLE_FOUR ≤ s))) := by
          apply List.countP_congr
          intro s hs
          rcases hb : decide (SCORE_SIMPLE_FOUR ≤ s) with _ | _ <;> simp [hb]
        rw [hcnot] at this
        rw [← hl] at hlen
        omega
      calc l.sum ≤ 10000 * l.countP (fun s => decide (SCORE_SIMPLE_FOUR ≤ s))
            + 1000 * (l.countP fun s => !(decide (SCORE_SIMPLE_FOUR ≤ s))) := h1
        _ ≤ 10000 * 1 + 1000 * 3 := by
            rw [hB1]
            exact add_le_add (le_refl _) (Nat.mul_le_mul_left _ h2)
        _ = 13000 := by norm_num
    have hOF : (l.countP fun s => decide (SCORE_OPEN_FOUR ≤ s)) = 0 := by
      rw [List.countP_eq_zero]
      intro s hs
      simp only [decide_eq_true_eq]
      exact fun hge => absurd (hB2 s (hl ▸ hs)) (by omega)
    have hSF : (l.countP fun s =>
        decide (¬ SCORE_OPEN_FOUR ≤ s ∧ SCORE_SIMPLE_FOUR ≤ s)) = 1 := by
      rw [← hB1]
      apply List.countP_congr
      intro s hs
      have := hB2 s (hl ▸ hs)
      simp only [decide_eq_true_eq]
      constructor
      · rintro ⟨_, h2⟩
        exact h2
      · intro h2
        exact ⟨by omega, h2⟩
    rw [hOF, hSF]
    have e1 : (if 1 ≤ 0 then 500000 else 0) = 0 := by norm_num
    have e2 : (if 2 ≤ 1 then 80000 else 0) = 0 := by norm_num
    rw [e1, e2]
    have e3 : (if 1 ≤ 1 ∧ 1 ≤ l.countP fun s =>
        decide (¬ SCORE_OPEN_FOUR ≤ s ∧ ¬ SCORE_SIMPLE_FOUR ≤ s ∧ SCORE_OPEN_THREE ≤ s)
        then 70000 else 0) ≤ 70000 := by
      split_ifs <;> norm_num
    have e4 : (if 2 ≤ l.countP fun s =>
        decide (¬ SCORE_OPEN_FOUR ≤ s ∧ ¬ SCORE_SIMPLE_FOUR ≤ s ∧ SCORE_OPEN_THREE ≤ s)
        then 9000 else 0) ≤ 9000 := by
      split_ifs <;> norm_num
    omega
  have hAgt : 100000 ≤ (evaluatePointAdvanced b xA yA p).1 := by
    rw [evaluatePointAdvanced, if_neg (by simp [hA0])]
    simp only
    set l := axisScores b xA yA p with hl
    have hsum : 20000 ≤ l.sum := by
      have := countP_mul_le_sum (l := l) (k := 10000)
        (q := fun s => decide (¬ SCORE_OPEN_FOUR ≤ s ∧ SCORE_SIMPLE_FOUR ≤ s))
        (by
          intro s hs hq
          rw [decide_eq_true_eq] at hq
          rw [SCORE_SIMPLE_FOUR] at hq
          omega)
      have h2 : 20000 ≤ 10000 * l.countP
          (fun s => decide (¬ SCORE_OPEN_FOUR ≤ s ∧ SCORE_SIMPLE_FOUR ≤ s)) := by
        calc (20000 : ℕ) = 10000 * 2 := by norm_num
          _ ≤ _ := Nat.mul_le_mul_left _ hA
      omega
    have hbonus : (if 2 ≤ l.countP fun s =>
        decide (¬ SCORE_OPEN_FOUR ≤ s ∧ SCORE_SIMPLE_FOUR ≤ s)
        then 80000 else 0) = 80000 := by
      rw [if_pos hA]
    omega
  omega

/-- Witness for claim C7 on the concrete board `bC7w` with A = (7, 7) and
B = (2, 2) for player 1. -/
theorem claim_C7_witness :
    getCell bC7w 7 7 = 0 ∧ getCell bC7w 2 2 = 0 ∧
    2 ≤ (axisScores bC7w 7 7 1).countP
      (fun s => decide (¬ SCORE_OPEN_FOUR ≤ s ∧ SCORE_SIMPLE_FOUR ≤ s)) ∧
    (axisScores bC7w 2 2 1).countP (fun s => decide (SCORE_SIMPLE_FOUR ≤ s)) = 1 ∧
    (evaluatePointAdvanced bC7w 2 2 1).1 < (evaluatePointAdvanced bC7w 7 7 1).1 :=
  ⟨by decide, by decide, by decide, by decide,
    claim_C7 bC7w 7 7 2 2 1 (by decide) (by decide) (by decide) (by decide)
      (by decide)⟩

/-- Claim C10: when a move fills the 225th cell without completing five in
a row, `placePiece` accepts the move, sets the game-over flag, reports the
draw result (winner 0), and does not pass the turn. -/
theorem claim_C10 (st : GState) (x y : ℤ)
    (hgo : st.gameOver = false)
    (hemp : getCell st.board x y = 0)
    (hlen : st.history.length = 224)
    (hnowin : checkWin (setCell st.board x y st.currentPlayer) x y
      st.currentPlayer = none) :
    (placePiece st x y true).2 = true ∧
    (placePiece st x y true).1.gameOver = true ∧
    (placePiece st x y true).1.reportedWinner = some 0 ∧
    (placePiece st x y true).1.currentPlayer = st.currentPlayer := by
  have h1 : ¬(st.gameOver = true ∨ getCell st.board x y ≠ 0) := by
    simp [hgo, hemp]
  have h2 : ¬((true : Bool) = false ∧ canPlayerMove st = false) := by
    simp
  have hl : (st.history ++ [(⟨x, y, st.currentPlayer⟩ : HMove)]).length = 225 := by
    simp [hlen]
  simp only [placePiece, if_neg h1, if_neg h2, hnowin, hl, if_pos]
  exact ⟨trivial, trivial, trivial, trivial⟩

set_option maxRecDepth 40000 in
/-- Witness for claim C10: the 224-ply full-board state `stC10`. -/
theorem claim_C10_witness :
    (placePiece stC10 0 0 true).2 = true ∧
    (placePiece stC10 0 0 true).1.gameOver = true ∧
    (placePiece stC10 0 0 true).1.reportedWinner = some 0 ∧
    (placePiece stC10 0 0 true).1.currentPlayer = stC10.currentPlayer :=
  claim_C10 stC10 0 0 (by decide) (by decide) (by decide) (by decide)

/-- Counterexample to claim C6 as stated: after the opponent's first move
`(3, 3)` at tier Hell, the returned move is NOT taken from the
opening-response table keyed by that move — no table entry's condition
matches `(3, 3)` at all, so no entry both matches and supplies the
returned move. -/
theorem claim_C6_cex :
    ¬ ∃ r ∈ OPENING_BOOK_responses,
      (r.1.any fun q => decide ((3 : ℤ) = q.1 ∧ (3 : ℤ) = q.2)) = true ∧
      getHellMove b33 hist33 1 2 = r.2 := by
  decide

/-- Claim C6 amended: with the opponent's first move `(3, 3)` (which has
no entry in the opening-response table), the hell-tier selector falls
through the table lookup to the `findBestOpeningMove` opening fallback —
still inside the move-count-1 opening branch, before any threat scan or
search step — and that fallback returns the centre `(7, 7)` here because
no centre-region cell has a stone within distance 1. -/
theorem claim_C6 :
    lookupResponse b33 ⟨3, 3, 1⟩ = none ∧
    getHellMove b33 hist33 1 2 = findBestOpeningMove b33 1 2 ∧
    getHellMove b33 hist33 1 2 = (7, 7) := by
  refine ⟨by decide, by decide, by decide⟩

set_option maxRecDepth 1000000 in
set_option maxHeartbeats 8000000 in
/-- Counterexample to claim C5 as stated: at a minimizing node (human side
to move; human = 1, AI = 2, board `b33`) the list minimax expands —
`minimaxCands`, the top-SEARCH_LIMIT candidates framed with the AI as
attacker and the human as defender — differs from the top-SEARCH_LIMIT
list framed with the side to move (player 1) as attacker and its opponent
as defender. -/
theorem claim_C5_cex :
    minimaxCands b33 1 2 ≠ getCandidatesImproved b33 2 1 12 := by
  decide

/-- Claim C5 amended: at every node of the minimax search of remaining
depth `d + 1`, the expanded moves are `minimaxCands b pc aiPlayer` — the
top `HARD_AI.SEARCH_LIMIT = 12` candidates computed with the AI player as
attacker and the human as defender — for the maximizing and the
minimizing side alike; the framing is never switched to the side to
move. -/
theorem claim_C5 (pc aiPlayer : ℕ) (d : ℕ) (b : Board) (α β : XQ)
    (isMax : Bool) :
    minimax pc aiPlayer (d + 1) b α β isMax =
      if hasImmediateWin b aiPlayer then
        (XQ.val (100000000 + 10 * ((d + 1 : ℕ) : ℤ)), b)
      else if hasImmediateWin b pc then
        (XQ.val (-100000000 - 10 * ((d + 1 : ℕ) : ℤ)), b)
      else if minimaxCands b pc aiPlayer = [] then
        (XQ.val (evaluateBoard b pc aiPlayer), b)
      else if isMax then
        mmLoopMax (fun b2 α2 β2 => minimax pc aiPlayer d b2 α2 β2 false)
          aiPlayer (minimaxCands b pc aiPlayer) b α β XQ.negInf
      else
        mmLoopMin (fun b2 α2 β2 => minimax pc aiPlayer d b2 α2 β2 true)
          pc (minimaxCands b pc aiPlayer) b α β XQ.posInf := by
  rw [minimax]

theorem ite_some_elim {P : Prop} [Decidable P] {α : Type} {o : Option α} {c : α}
    (h : (if P then o else none) = some c) : P ∧ o = some c := by
  split at h
  · exact ⟨by assumption, h⟩
  · cases h

theorem mem_getCandidatesImproved {b : Board} {pc ai lim : ℕ} {c : Cand}
    (h : c ∈ getCandidatesImproved b pc ai lim) :
    getCell b c.x c.y = 0 ∧ inB c.x c.y = true := by
  unfold getCandidatesImproved candScores at h
  have h2 := List.take_subset _ _ h
  rw [mem_sortCandsDesc] at h2
  obtain ⟨a, ha, hfa⟩ := List.mem_filterMap.mp h2
  obtain ⟨hcond, h3⟩ := ite_some_elim hfa
  cases h3
  exact ⟨hcond.1, mem_allCells.mp ha⟩

theorem mem_findAllRushFoursImproved {b : Board} {p : ℕ} {c : Cand}
    (h : c ∈ findAllRushFoursImproved b p) :
    getCell b c.x c.y = 0 ∧ inB c.x c.y = true := by
  unfold findAllRushFoursImproved at h
  have h2 := List.take_subset _ _ h
  rw [mem_sortCandsDesc] at h2
  obtain ⟨a, ha, hfa⟩ := List.mem_filterMap.mp h2
  obtain ⟨hcond, h3⟩ := ite_some_elim hfa
  obtain ⟨hms, h4⟩ := ite_some_elim h3
  cases h4
  exact ⟨hcond.1, mem_allCells.mp ha⟩

theorem mem_findAllThreatsImproved {b : Board} {p : ℕ} {c : Cand}
    (h : c ∈ findAllThreatsImproved b p) :
    getCell b c.x c.y = 0 ∧ inB c.x c.y = true := by
  unfold findAllThreatsImproved at h
  rw [mem_sortCandsDesc] at h
  obtain ⟨a, ha, hfa⟩ := List.mem_filterMap.mp h
  obtain ⟨hcond, h3⟩ := ite_some_elim hfa
  obtain ⟨hsc, h4⟩ := ite_some_elim h3
  cases h4
  exact ⟨hcond.1, mem_allCells.mp ha⟩

theorem mem_findAllDefensePoints {b : Board} {p : ℕ} {dp : ℤ × ℤ}
    (h : dp ∈ findAllDefensePoints b p) : getCell b dp.1 dp.2 = 0 := by
  unfold findAllDefensePoints at h
  have h2 := List.mem_filter.mp h
  have := h2.2
  simp only [Bool.and_eq_true, decide_eq_true_eq] at this
  exact this.1.1

theorem mmLoopMax_board {f : Board → XQ → XQ → XQ × Board} {pl : ℕ}
    (hf : ∀ b2 α2 β2, (f b2 α2 β2).2 = b2) :
    ∀ (L : List Cand) (b : Board) (α β mx : XQ),
      (∀ c ∈ L, getCell b c.x c.y = 0) →
      (mmLoopMax f pl L b α β mx).2 = b := by
  intro L
  induction L with
  | nil => intro b α β mx _; rfl
  | cons c rest ih =>
    intro b α β mx hL
    rw [mmLoopMax]
    have hres : (f (setCell b c.x c.y pl) α β).2 = setCell b c.x c.y pl := hf ..
    have hcanc : setCell (f (setCell b c.x c.y pl) α β).2 c.x c.y 0 = b := by
      rw [hres]
      exact setCell_setCell_cancel (hL c (List.mem_cons_self c rest))
    simp only [hcanc]
    split_ifs
    · rfl
    · exact ih b _ _ _ fun d hd => hL d (List.mem_cons_of_mem c hd)

theorem mmLoopMin_board {f : Board → XQ → XQ → XQ × Board} {pl : ℕ}
    (hf : ∀ b2 α2 β2, (f b2 α2 β2).2 = b2) :
    ∀ (L : List Cand) (b : Board) (α β mn : XQ),
      (∀ c ∈ L, getCell b c.x c.y = 0) →
      (mmLoopMin f pl L b α β mn).2 = b := by
  intro L
  induction L with
  | nil => intro b α β mn _; rfl
  | cons c rest ih =>
    intro b α β mn hL
    rw [mmLoopMin]
    have hres : (f (setCell b c.x c.y pl) α β).2 = setCell b c.x c.y pl := hf ..
    have hcanc : setCell (f (setCell b c.x c.y pl) α β).2 c.x c.y 0 = b := by
      rw [hres]
      exact setCell_setCell_cancel (hL c (List.mem_cons_self c rest))
    simp only [hcanc]
    split_ifs
    · rfl
    · exact ih b _ _ _ fun d hd => hL d (List.mem_cons_of_mem c hd)

theorem minimax_board (pc aiPlayer : ℕ) :
    ∀ (d : ℕ) (b : Board) (α β : XQ) (isMax : Bool),
      (minimax pc aiPlayer d b α β isMax).2 = b := by
  intro d
  induction d with
  | zero =>
    intro b α β isMax
    rw [minimax]
    split_ifs <;> rfl
  | succ d ih =>
    intro b α β isMax
    rw [minimax]
    split_ifs with h1 h2 h3 h4
    · rfl
    · rfl
    · rfl
    · exact mmLoopMax_board (fun b2 α2 β2 => ih b2 α2 β2 false) _ b α β _
        fun c hc => (mem_getCandidatesImproved hc).1
    · exact mmLoopMin_board (fun b2 α2 β2 => ih b2 α2 β2 true) _ b α β _
        fun c hc => (mem_getCandidatesImproved hc).1

theorem minimaxHellImproved_board (pc aiPlayer : ℕ) :
    ∀ (d : ℕ) (b : Board) (α β : XQ) (isMax : Bool),
      (minimaxHellImproved pc aiPlayer d b α β isMax).2 = b := by
  intro d
  induction d with
  | zero =>
    intro b α β isMax
    rw [minimaxHellImproved]
    split_ifs <;> rfl
  | succ d ih =>
    intro b α β isMax
    rw [minimaxHellImproved]
    split_ifs with h1 h2 h3 h4
    · rfl
    · rfl
    · rfl
    · exact mmLoopMax_board (fun b2 α2 β2 => ih b2 α2 β2 false) _ b α β _
        fun c hc => (mem_getCandidatesImproved hc).1
    · exact mmLoopMin_board (fun b2 α2 β2 => ih b2 α2 β2 true) _ b α β _
        fun c hc => (mem_getCandidatesImproved hc).1

theorem vcfDefenseLoop_board {f : Board → Option (ℤ × ℤ) × Board} {opp : ℕ}
    (hf : ∀ b2, (f b2).2 = b2) :
    ∀ (L : List (ℤ × ℤ)) (b : Board),
      (∀ dp ∈ L, getCell b dp.1 dp.2 = 0) →
      (vcfDefenseLoop f opp L b).2 = b := by
  intro L
  induction L with
  | nil => intro b _; rfl
  | cons dp rest ih =>
    intro b hL
    rw [vcfDefenseLoop]
    have hres : (f (setCell b dp.1 dp.2 opp)).2 = setCell b dp.1 dp.2 opp := hf _
    have hcanc : setCell (f (setCell b dp.1 dp.2 opp)).2 dp.1 dp.2 0 = b := by
      rw [hres]
      exact setCell_setCell_cancel (hL dp (List.mem_cons_self dp rest))
    simp only [hcanc]
    split_ifs
    · rfl
    · exact ih b fun d hd => hL d (List.mem_cons_of_mem dp hd)

theorem vcfMoveLoop_board {f : Board → Option (ℤ × ℤ) × Board} {player opp : ℕ}
    (hf : ∀ b2, (f b2).2 = b2) :
    ∀ (L : List Cand) (b : Board),
      (∀ m ∈ L, getCell b m.x m.y = 0) →
      (vcfMoveLoop f player opp L b).2 = b := by
  intro L
  induction L with
  | nil => intro b _; rfl
  | cons m rest ih =>
    intro b hL
    rw [vcfMoveLoop]
    have hm0 : getCell b m.x m.y = 0 := hL m (List.mem_cons_self m rest)
    have hcanc : setCell (setCell b m.x m.y player) m.x m.y 0 = b :=
      setCell_setCell_cancel hm0
    have hdef : (vcfDefenseLoop f opp
        (findAllDefensePoints (setCell b m.x m.y player) player)
        (setCell b m.x m.y player)).2 = setCell b m.x m.y player :=
      vcfDefenseLoop_board hf _ _ fun dp hdp => mem_findAllDefensePoints hdp
    simp only [hdef, hcanc]
    split_ifs
    · rfl
    · rfl
    · exact ih b fun d hd => hL d (List.mem_cons_of_mem m hd)

theorem vcfSearch_board (player opp : ℕ) :
    ∀ (d : ℕ) (isAttacker : Bool) (b : Board),
      (vcfSearch player opp d isAttacker b).2 = b := by
  intro d
  induction d with
  | zero => intro isAttacker b; rfl
  | succ d ih =>
    intro isAttacker b
    rw [vcfSearch]
    split_ifs with h1 h2
    · rfl
    · exact vcfMoveLoop_board (fun b2 => ih true b2) _ b
        fun m hm => (mem_findAllRushFoursImproved hm).1
    · rfl

theorem vctLoop_board (player : ℕ) :
    ∀ (L : List Cand) (b : Board),
      (∀ m ∈ L, getCell b m.x m.y = 0) →
      (vctLoop player L b).2 = b := by
  intro L
  induction L with
  | nil => intro b _; rfl
  | cons m rest ih =>
    intro b hL
    rw [vctLoop]
    have hcanc : setCell (setCell b m.x m.y player) m.x m.y 0 = b :=
      setCell_setCell_cancel (hL m (List.mem_cons_self m rest))
    simp only [hcanc]
    split_ifs
    · rfl
    · exact ih b fun d hd => hL d (List.mem_cons_of_mem m hd)

/-- Claim C3: every search entry point — the hard-tier minimax, the
hell-tier minimax, and the VCF/VCT forcing-sequence searches — returns
the board component bit-for-bit identical to its input board, on every
exit path (the board is threaded through every place/retract, pruning
break, and early return of the embedding). -/
theorem claim_C3 (pc aiPlayer player d maxDepth : ℕ) (b : Board) (α β : XQ)
    (isMax : Bool) :
    (minimax pc aiPlayer d b α β isMax).2 = b ∧
    (minimaxHellImproved pc aiPlayer d b α β isMax).2 = b ∧
    (searchVCFImproved b player maxDepth).2 = b ∧
    (searchVCTImproved b player maxDepth).2 = b := by
  refine ⟨minimax_board pc aiPlayer d b α β isMax,
    minimaxHellImproved_board pc aiPlayer d b α β isMax, ?_, ?_⟩
  · unfold searchVCFImproved
    exact vcfSearch_board ..
  · unfold searchVCTImproved
    exact vctLoop_board _ _ b fun m hm =>
      (mem_findAllThreatsImproved (List.take_subset _ _ hm)).1

/-- Witness for claim C8 at the concrete window `_____OX__`. -/
theorem claim_C8_witness :
    ([.E, .E, .E, .E, .E, .O, .X, .E, .E] : List LC).length = 9 ∧
    ([.E, .E, .E, .E, .E, .O, .X, .E, .E] : List LC).getD 4 LC.X = LC.E ∧
    classifyPattern ([.E, .E, .E, .E, .E, .O, .X, .E, .E] : List LC).reverse 4
      = classifyPattern [.E, .E, .E, .E, .E, .O, .X, .E, .E] 4 :=
  ⟨by decide, by decide, claim_C8 _ (by decide) (by decide)⟩

theorem mem_offsetsList {dist : ℕ} {o : ℤ × ℤ} :
    o ∈ offsetsList dist ↔
      -(dist : ℤ) ≤ o.1 ∧ o.1 ≤ dist ∧ -(dist : ℤ) ≤ o.2 ∧ o.2 ≤ dist := by
  obtain ⟨a, c⟩ := o
  constructor
  · intro h
    rw [offsetsList] at h
    obtain ⟨i, hi, h2⟩ := List.mem_flatMap.mp h
    obtain ⟨j, hj, h3⟩ := List.mem_map.mp h2
    rw [List.mem_range] at hi hj
    rw [Prod.mk.injEq] at h3
    obtain ⟨h4, h5⟩ := h3
    refine ⟨?_, ?_, ?_, ?_⟩ <;> omega
  · intro h
    obtain ⟨h1, h2, h3, h4⟩ := h
    rw [offsetsList]
    refine List.mem_flatMap.mpr ⟨(a + dist).toNat, ?_, ?_⟩
    · rw [List.mem_range]; omega
    · refine List.mem_map.mpr ⟨(c + dist).toNat, ?_, ?_⟩
      · rw [List.mem_range]; omega
      · rw [Prod.mk.injEq]
        constructor <;> omega

theorem dirs_facts {d : ℤ × ℤ} (hd : d ∈ dirs) :
    (-1 ≤ d.1 ∧ d.1 ≤ 1 ∧ -1 ≤ d.2 ∧ d.2 ≤ 1) ∧ ¬(d.1 = 0 ∧ d.2 = 0) := by
  fin_cases hd <;> norm_num

theorem two_run_facts {b : Board} {x y ex ey : ℤ} {p : ℕ}
    (hp : p ≠ 0)
    (hbound : -1 ≤ ex ∧ ex ≤ 1 ∧ -1 ≤ ey ∧ ey ≤ 1) (hdz : ¬(ex = 0 ∧ ey = 0))
    (h2 : 2 ≤ countRun (setCell b x y p) x y ex ey p) :
    hasNeighbor b x y 2 = true ∧ 2 ≤ stoneCount b := by
  obtain ⟨hb1, hb2, hb3, hb4⟩ := hbound
  have c1 : (1 : ℤ) ≤ (countRun (setCell b x y p) x y ex ey p : ℤ) := by
    omega
  have c2 : (2 : ℤ) ≤ (countRun (setCell b x y p) x y ex ey p : ℤ) := by
    omega
  have s1 := stepOK_iff.mp (countRun_ok (by norm_num) c1)
  have s2 := stepOK_iff.mp (countRun_ok (by norm_num) c2)
  have ne1 : ((x + ex * 1, y + ey * 1) : ℤ × ℤ) ≠ (x, y) := by
    intro h
    rw [Prod.mk.injEq] at h
    obtain ⟨ha, hb⟩ := h
    exact hdz ⟨by omega, by omega⟩
  have ne2 : ((x + ex * 2, y + ey * 2) : ℤ × ℤ) ≠ (x, y) := by
    intro h
    rw [Prod.mk.injEq] at h
    obtain ⟨ha, hb⟩ := h
    exact hdz ⟨by omega, by omega⟩
  have g1 : getCell b (x + ex * 1) (y + ey * 1) = p := by
    rw [← getCell_setCell_ne ne1]; exact s1.2
  have g2 : getCell b (x + ex * 2) (y + ey * 2) = p := by
    rw [← getCell_setCell_ne ne2]; exact s2.2
  obtain ⟨q1, q2, q3, q4⟩ := inB_iff.mp s1.1
  obtain ⟨q5, q6, q7, q8⟩ := inB_iff.mp s2.1
  constructor
  · rw [hasNeighbor, List.any_eq_true]
    refine ⟨(ex * 1, ey * 1), mem_offsetsList.mpr
      ⟨by push_cast; omega, by push_cast; omega,
       by push_cast; omega, by push_cast; omega⟩, ?_⟩
    simp only [Bool.and_eq_true, Bool.not_eq_true', decide_eq_false_iff_not,
      decide_eq_true_eq]
    refine ⟨⟨?_, s1.1⟩, ?_⟩
    · intro hz
      exact hdz ⟨by omega, by omega⟩
    · rw [g1]; exact hp
  · rw [stoneCount]
    have m1 : (((x + ex * 1).toNat, (y + ey * 1).toNat) : ℕ × ℕ) ∈
        ((Finset.range 15) ×ˢ (Finset.range 15)).filter
          (fun ij => getCell b (ij.1 : ℤ) (ij.2 : ℤ) ≠ 0) := by
      simp only [Finset.mem_filter, Finset.mem_product, Finset.mem_range]
      refine ⟨⟨by omega, by omega⟩, ?_⟩
      show getCell b (((x + ex * 1).toNat : ℕ) : ℤ) (((y + ey * 1).toNat : ℕ) : ℤ) ≠ 0
      rw [Int.toNat_of_nonneg q1, Int.toNat_of_nonneg q3, g1]
      exact hp
    have m2 : (((x + ex * 2).toNat, (y + ey * 2).toNat) : ℕ × ℕ) ∈
        ((Finset.range 15) ×ˢ (Finset.range 15)).filter
          (fun ij => getCell b (ij.1 : ℤ) (ij.2 : ℤ) ≠ 0) := by
      simp only [Finset.mem_filter, Finset.mem_product, Finset.mem_range]
      refine ⟨⟨by omega, by omega⟩, ?_⟩
      show getCell b (((x + ex * 2).toNat : ℕ) : ℤ) (((y + ey * 2).toNat : ℕ) : ℤ) ≠ 0
      rw [Int.toNat_of_nonneg q5, Int.toNat_of_nonneg q7, g2]
      exact hp
    have mne : (((x + ex * 1).toNat, (y + ey * 1).toNat) : ℕ × ℕ) ≠
        ((x + ex * 2).toNat, (y + ey * 2).toNat) := by
      intro h
      rw [Prod.mk.injEq] at h
      obtain ⟨ha, hb⟩ := h
      exact hdz ⟨by omega, by omega⟩
    have hcard := Finset.one_lt_card.mpr ⟨_, m1, _, m2, mne⟩
    omega

theorem winningPlacement_facts {b : Board} {p : ℕ} {m : ℤ × ℤ}
    (hp : p ≠ 0) (hw : winningPlacement b p m) :
    hasNeighbor b m.1 m.2 2 = true ∧ 2 ≤ stoneCount b := by
  obtain ⟨hin, hemp, hwin⟩ := hw
  rw [checkWinB, checkWin] at hwin
  obtain ⟨v, hv⟩ := Option.isSome_iff_exists.mp hwin
  obtain ⟨d, hd, hgd⟩ := findSome?_some_mem hv
  have hcond := (ite_some_elim hgd).1
  obtain ⟨hbound, hdz⟩ := dirs_facts hd
  have hfle := countRun_le (setCell b m.1 m.2 p) m.1 m.2 d.1 d.2 p
  have hble := countRun_le (setCell b m.1 m.2 p) m.1 m.2 (-d.1) (-d.2) p
  rcases Nat.lt_or_ge (countRun (setCell b m.1 m.2 p) m.1 m.2 d.1 d.2 p) 2 with hc | hc
  · refine two_run_facts hp ?_ ?_ (show 2 ≤ countRun (setCell b m.1 m.2 p)
      m.1 m.2 (-d.1) (-d.2) p by omega)
    · obtain ⟨u1, u2, u3, u4⟩ := hbound
      exact ⟨by omega, by omega, by omega, by omega⟩
    · intro hz
      exact hdz ⟨by omega, by omega⟩
  · refine two_run_facts hp hbound hdz hc

theorem findImmediateWin_of_winning {b : Board} {p : ℕ} (hp : p ≠ 0)
    (hex : ∃ m : ℤ × ℤ, winningPlacement b p m) :
    ∃ m : ℤ × ℤ, findImmediateWin b p = some m ∧ winningPlacement b p m := by
  obtain ⟨m0, hm0⟩ := hex
  have hnb := (winningPlacement_facts hp hm0).1
  have hsome : (findImmediateWin b p).isSome = true := by
    rw [findImmediateWin, List.find?_isSome]
    refine ⟨m0, mem_allCells.mpr hm0.1, ?_⟩
    simp only [Bool.and_eq_true, decide_eq_true_eq]
    exact ⟨⟨hm0.2.1, hnb⟩, hm0.2.2⟩
  obtain ⟨m, hm⟩ := Option.isSome_iff_exists.mp hsome
  refine ⟨m, hm, ?_⟩
  rw [findImmediateWin] at hm
  have hpm := List.find?_some hm
  have hmem := List.mem_of_find?_eq_some hm
  simp only [Bool.and_eq_true, decide_eq_true_eq] at hpm
  exact ⟨mem_allCells.mp hmem, hpm.1.1, hpm.2⟩

set_option maxRecDepth 4000 in
/-- Claim C1: on any board where some empty in-bounds cell completes
five-in-a-row for the computer player, every difficulty tier's move
selector (easy, medium, hard, and hell — the latter under the session
invariant tying the history length to the stone count) returns the
immediate-win scan's cell, which is itself such a winning cell; no tier
falls through to a weaker policy step. -/
theorem claim_C1 (b : Board) (hist : List HMove) (pc : ℕ) (r1 : Bool) (r2 : ℕ)
    (hwf : hist.length = stoneCount b)
    (hwin : ∃ m : ℤ × ℤ, winningPlacement b (getAIPlayer pc) m) :
    ∃ m : ℤ × ℤ, findImmediateWin b (getAIPlayer pc) = some m ∧
      winningPlacement b (getAIPlayer pc) m ∧
      getEasyMove b pc (getAIPlayer pc) r1 r2 = m ∧
      getMediumMove b pc (getAIPlayer pc) = m ∧
      getHardMove b pc (getAIPlayer pc) = m ∧
      getHellMove b hist pc (getAIPlayer pc) = m := by
  have hai : getAIPlayer pc ≠ 0 := by
    rw [getAIPlayer]; split_ifs <;> norm_num
  obtain ⟨m, hfi, hwm⟩ := findImmediateWin_of_winning hai hwin
  have hsc := (winningPlacement_facts hai hwm).2
  refine ⟨m, hfi, hwm, ?_, ?_, ?_, ?_⟩
  · unfold getEasyMove
    rw [hfi]
  · unfold getMediumMove
    rw [hfi]
  · unfold getHardMove
    rw [hfi]
  · unfold getHellMove
    rw [if_neg (by omega : ¬hist.length = 0), if_neg (by omega : ¬hist.length = 1),
      hfi]

/-- Witness for claim C1 on the concrete board `bWin` (an open four for
player 2 on row 5): all four tiers return the winning cell `(4, 5)`. -/
theorem claim_C1_witness :
    histWin.length = stoneCount bWin ∧
    ∃ m : ℤ × ℤ, findImmediateWin bWin (getAIPlayer 1) = some m ∧
      winningPlacement bWin (getAIPlayer 1) m ∧
      getEasyMove bWin 1 (getAIPlayer 1) true 0 = m ∧
      getMediumMove bWin 1 (getAIPlayer 1) = m ∧
      getHardMove bWin 1 (getAIPlayer 1) = m ∧
      getHellMove bWin histWin 1 (getAIPlayer 1) = m :=
  ⟨by decide, claim_C1 bWin histWin 1 true 0 (by decide)
    ⟨(4, 5), by decide, by decide, by decide⟩⟩

theorem hasNeighbor_stone {b : Board} {x y : ℤ} {dist : ℕ}
    (h : hasNeighbor b x y dist = true) :
    ∃ u v : ℤ, inB u v = true ∧ getCell b u v ≠ 0 := by
  rw [hasNeighbor, List.any_eq_true] at h
  obtain ⟨o, ho, hp⟩ := h
  simp only [Bool.and_eq_true, Bool.not_eq_true', decide_eq_false_iff_not] at hp
  exact ⟨x + o.1, y + o.2, hp.1.2, hp.2⟩

theorem stoneCount_pos {b : Board} {u v : ℤ} (hin : inB u v = true)
    (h : getCell b u v ≠ 0) : 1 ≤ stoneCount b := by
  rw [stoneCount]
  obtain ⟨q1, q2, q3, q4⟩ := inB_iff.mp hin
  have m1 : ((u.toNat, v.toNat) : ℕ × ℕ) ∈
      ((Finset.range 15) ×ˢ (Finset.range 15)).filter
        (fun ij => getCell b (ij.1 : ℤ) (ij.2 : ℤ) ≠ 0) := by
    simp only [Finset.mem_filter, Finset.mem_product, Finset.mem_range]
    refine ⟨⟨by omega, by omega⟩, ?_⟩
    show getCell b ((u.toNat : ℕ) : ℤ) ((v.toNat : ℕ) : ℤ) ≠ 0
    rw [Int.toNat_of_nonneg q1, Int.toNat_of_nonneg q3]
    exact h
  have := Finset.card_pos.mpr ⟨_, m1⟩
  omega

theorem candExists_stone {b : Board} (h : candExists b) : 1 ≤ stoneCount b := by
  obtain ⟨c, hin, hemp, hnb⟩ := h
  obtain ⟨u, v, hin2, hne⟩ := hasNeighbor_stone hnb
  exact stoneCount_pos hin2 hne

theorem not_candExists_of_empty {b : Board} (h : stoneCount b = 0) :
    ¬ candExists b := by
  intro hc
  have := candExists_stone hc
  omega

theorem stone_unique {b : Board} (h : stoneCount b ≤ 1) {x y u v : ℤ}
    (h1 : getCell b x y ≠ 0) (h2 : getCell b u v ≠ 0) : x = u ∧ y = v := by
  obtain ⟨q1, q2, q3, q4⟩ := inB_iff.mp (inB_of_getCell_ne h1)
  obtain ⟨q5, q6, q7, q8⟩ := inB_iff.mp (inB_of_getCell_ne h2)
  by_contra hne
  have m1 : ((x.toNat, y.toNat) : ℕ × ℕ) ∈
      ((Finset.range 15) ×ˢ (Finset.range 15)).filter
        (fun ij => getCell b (ij.1 : ℤ) (ij.2 : ℤ) ≠ 0) := by
    simp only [Finset.mem_filter, Finset.mem_product, Finset.mem_range]
    refine ⟨⟨by omega, by omega⟩, ?_⟩
    show getCell b ((x.toNat : ℕ) : ℤ) ((y.toNat : ℕ) : ℤ) ≠ 0
    rw [Int.toNat_of_nonneg q1, Int.toNat_of_nonneg q3]
    exact h1
  have m2 : ((u.toNat, v.toNat) : ℕ × ℕ) ∈
      ((Finset.range 15) ×ˢ (Finset.range 15)).filter
        (fun ij => getCell b (ij.1 : ℤ) (ij.2 : ℤ) ≠ 0) := by
    simp only [Finset.mem_filter, Finset.mem_product, Finset.mem_range]
    refine ⟨⟨by omega, by omega⟩, ?_⟩
    show getCell b ((u.toNat : ℕ) : ℤ) ((v.toNat : ℕ) : ℤ) ≠ 0
    rw [Int.toNat_of_nonneg q5, Int.toNat_of_nonneg q7]
    exact h2
  have hne2 : ((x.toNat, y.toNat) : ℕ × ℕ) ≠ (u.toNat, v.toNat) := by
    intro hq
    rw [Prod.mk.injEq] at hq
    obtain ⟨e1, e2⟩ := hq
    exact hne ⟨by omega, by omega⟩
  have := Finset.one_lt_card.mpr ⟨_, m1, _, m2, hne2⟩
  rw [stoneCount] at h
  omega

theorem candExists_of_one {b : Board} (h : stoneCount b = 1) : candExists b := by
  have h' := h
  rw [stoneCount] at h'
  obtain ⟨a, ha⟩ := Finset.card_eq_one.mp h'
  have hmem : a ∈ ((Finset.range 15) ×ˢ (Finset.range 15)).filter
      (fun ij => getCell b (ij.1 : ℤ) (ij.2 : ℤ) ≠ 0) := by
    rw [ha]
    exact Finset.mem_singleton_self a
  simp only [Finset.mem_filter, Finset.mem_product, Finset.mem_range] at hmem
  obtain ⟨⟨hi, hj⟩, hst⟩ := hmem
  by_cases hx : (a.1 : ℤ) < 14
  · refine ⟨((a.1 : ℤ) + 1, (a.2 : ℤ)), ?_, ?_, ?_⟩
    · rw [inB_iff]
      constructor
      · omega
      · refine ⟨by omega, by omega, by omega⟩
    · by_contra hne
      obtain ⟨e1, _⟩ := stone_unique (by omega) hne hst
      omega
    · rw [hasNeighbor, List.any_eq_true]
      refine ⟨(-1, 0), mem_offsetsList.mpr (by norm_num), ?_⟩
      simp only [Bool.and_eq_true, Bool.not_eq_true', decide_eq_false_iff_not,
        decide_eq_true_eq]
      have e1 : (a.1 : ℤ) + 1 + -1 = (a.1 : ℤ) := by ring
      have e2 : (a.2 : ℤ) + 0 = (a.2 : ℤ) := by ring
      refine ⟨⟨by norm_num, ?_⟩, ?_⟩
      · rw [e1, e2, inB_iff]
        refine ⟨by omega, by omega, by omega, by omega⟩
      · rw [e1, e2]
        exact hst
  · refine ⟨((a.1 : ℤ) - 1, (a.2 : ℤ)), ?_, ?_, ?_⟩
    · rw [inB_iff]
      refine ⟨by omega, by omega, by omega, by omega⟩
    · by_contra hne
      obtain ⟨e1, _⟩ := stone_unique (by omega) hne hst
      omega
    · rw [hasNeighbor, List.any_eq_true]
      refine ⟨(1, 0), mem_offsetsList.mpr (by norm_num), ?_⟩
      simp only [Bool.and_eq_true, Bool.not_eq_true', decide_eq_false_iff_not,
        decide_eq_true_eq]
      have e1 : (a.1 : ℤ) - 1 + 1 = (a.1 : ℤ) := by ring
      have e2 : (a.2 : ℤ) + 0 = (a.2 : ℤ) := by ring
      refine ⟨⟨by norm_num, ?_⟩, ?_⟩
      · rw [e1, e2, inB_iff]
        refine ⟨by omega, by omega, by omega, by omega⟩
      · rw [e1, e2]
        exact hst

theorem find?_cell_facts {b : Board} {g : (ℤ × ℤ) → Bool} {m : ℤ × ℤ}
    (h : (allCells.find? fun c =>
      decide (getCell b c.1 c.2 = 0) && hasNeighbor b c.1 c.2 2 && g c) = some m) :
    moveOK b m := by
  have hp := List.find?_some h
  have hmem := List.mem_of_find?_eq_some h
  simp only [Bool.and_eq_true, decide_eq_true_eq] at hp
  exact ⟨mem_allCells.mp hmem, hp.1.1⟩

theorem find?_cell_none {b : Board} (h : ¬ candExists b) (g : (ℤ × ℤ) → Bool) :
    (allCells.find? fun c =>
      decide (getCell b c.1 c.2 = 0) && hasNeighbor b c.1 c.2 2 && g c) = none := by
  rw [List.find?_eq_none]
  intro c hc hcontra
  simp only [Bool.and_eq_true, decide_eq_true_eq] at hcontra
  exact h ⟨c, mem_allCells.mp hc, hcontra.1.1, hcontra.1.2⟩

theorem any_cell_false {b : Board} (h : ¬ candExists b) (g : (ℤ × ℤ) → Bool) :
    (allCells.any fun c =>
      decide (getCell b c.1 c.2 = 0) && hasNeighbor b c.1 c.2 2 && g c) = false := by
  rw [List.any_eq_false]
  intro c hc hcontra
  simp only [Bool.and_eq_true, decide_eq_true_eq] at hcontra
  exact h ⟨c, mem_allCells.mp hc, hcontra.1.1, hcontra.1.2⟩

theorem findImmediateWin_moveOK {b : Board} {p : ℕ} {m : ℤ × ℤ}
    (h : findImmediateWin b p = some m) : moveOK b m := by
  unfold findImmediateWin at h
  exact find?_cell_facts h

theorem findThreat_moveOK {b : Board} {p ms : ℕ} {m : ℤ × ℤ}
    (h : findThreat b p ms = some m) : moveOK b m := by
  unfold findThreat at h
  exact find?_cell_facts h

theorem findDoubleRushFour_moveOK {b : Board} {p : ℕ} {m : ℤ × ℤ}
    (h : findDoubleRushFour b p = some m) : moveOK b m := by
  unfold findDoubleRushFour at h
  exact find?_cell_facts h

theorem findFourThreeCombo_moveOK {b : Board} {p : ℕ} {m : ℤ × ℤ}
    (h : findFourThreeCombo b p = some m) : moveOK b m := by
  unfold findFourThreeCombo at h
  exact find?_cell_facts h

theorem findDoubleThree_moveOK {b : Board} {p : ℕ} {m : ℤ × ℤ}
    (h : findDoubleThree b p = some m) : moveOK b m := by
  unfold findDoubleThree at h
  exact find?_cell_facts h

theorem findImmediateWin_none {b : Board} {p : ℕ} (h : ¬ candExists b) :
    findImmediateWin b p = none := by
  unfold findImmediateWin
  exact find?_cell_none h _

theorem findThreat_none {b : Board} {p ms : ℕ} (h : ¬ candExists b) :
    findThreat b p ms = none := by
  unfold findThreat
  exact find?_cell_none h _

theorem findDoubleRushFour_none {b : Board} {p : ℕ} (h : ¬ candExists b) :
    findDoubleRushFour b p = none := by
  unfold findDoubleRushFour
  exact find?_cell_none h _

theorem findFourThreeCombo_none {b : Board} {p : ℕ} (h : ¬ candExists b) :
    findFourThreeCombo b p = none := by
  unfold findFourThreeCombo
  exact find?_cell_none h _

theorem findDoubleThree_none {b : Board} {p : ℕ} (h : ¬ candExists b) :
    findDoubleThree b p = none := by
  unfold findDoubleThree
  exact find?_cell_none h _

theorem hasImmediateWin_false {b : Board} {p : ℕ} (h : ¬ candExists b) :
    hasImmediateWin b p = false := by
  unfold hasImmediateWin
  exact any_cell_false h _

theorem length_insertCandDesc (c : Cand) (l : List Cand) :
    (insertCandDesc c l).length = l.length + 1 := by
  induction l with
  | nil => rfl
  | cons d t ih =>
    rw [insertCandDesc]
    split_ifs
    · simp only [List.length_cons, ih]
    · rfl

theorem length_sortCandsDesc (l : List Cand) :
    (sortCandsDesc l).length = l.length := by
  unfold sortCandsDesc
  induction l with
  | nil => rfl
  | cons d t ih =>
    rw [List.foldr_cons, length_insertCandDesc, ih, List.length_cons]

theorem easyCands_nil {b : Board} {pc ai : ℕ} (h : ¬ candExists b) :
    easyCands b pc ai = [] := by
  unfold easyCands
  rw [List.filterMap_eq_nil_iff]
  intro c hc
  exact if_neg fun hp => h ⟨c, mem_allCells.mp hc, hp.1, hp.2⟩

theorem easyCands_ne_nil {b : Board} {pc ai : ℕ} (h : candExists b) :
    easyCands b pc ai ≠ [] := by
  obtain ⟨c, hin, hemp, hnb⟩ := h
  have hmem : (⟨c.1, c.2,
      10 * ((evaluatePoint b c.1 c.2 ai + evaluatePoint b c.1 c.2 pc : ℕ) : ℤ)⟩ : Cand)
      ∈ easyCands b pc ai := by
    unfold easyCands
    refine List.mem_filterMap.mpr ⟨c, mem_allCells.mpr hin, ?_⟩
    exact if_pos ⟨hemp, hnb⟩
  exact List.ne_nil_of_mem hmem

theorem mem_easyCands {b : Board} {pc ai : ℕ} {c : Cand}
    (h : c ∈ easyCands b pc ai) : moveOK b (c.x, c.y) := by
  unfold easyCands at h
  obtain ⟨q, hq, hfq⟩ := List.mem_filterMap.mp h
  obtain ⟨hcond, h3⟩ := ite_some_elim hfq
  cases h3
  exact ⟨mem_allCells.mp hq, hcond.1⟩

theorem candScores_nil {b : Board} {pc ai : ℕ} (h : ¬ candExists b) :
    candScores b pc ai = [] := by
  unfold candScores
  rw [List.filterMap_eq_nil_iff]
  intro c hc
  exact if_neg fun hp => h ⟨c, mem_allCells.mp hc, hp.1, hp.2⟩

theorem candScores_ne_nil {b : Board} {pc ai : ℕ} (h : candExists b) :
    candScores b pc ai ≠ [] := by
  obtain ⟨c, hin, hemp, hnb⟩ := h
  have hmem : (⟨c.1, c.2,
      (evaluatePoint b c.1 c.2 ai : ℤ) * 12 + (evaluatePoint b c.1 c.2 pc : ℤ) * 18
        + ((7 - |c.1 - 7|) + (7 - |c.2 - 7|)) * 500
        + (if SCORE_OPEN_FOUR ≤ evaluatePoint b c.1 c.2 ai ∨
            SCORE_OPEN_FOUR ≤ evaluatePoint b c.1 c.2 pc then 10000000 else 0)
        + (if SCORE_SIMPLE_FOUR ≤ evaluatePoint b c.1 c.2 ai ∨
            SCORE_SIMPLE_FOUR ≤ evaluatePoint b c.1 c.2 pc then 5000000 else 0)
        + (if SCORE_OPEN_THREE ≤ evaluatePoint b c.1 c.2 ai ∨
            SCORE_OPEN_THREE ≤ evaluatePoint b c.1 c.2 pc then 1000000 else 0)⟩ : Cand)
      ∈ candScores b pc ai := by
    unfold candScores
    refine List.mem_filterMap.mpr ⟨c, mem_allCells.mpr hin, ?_⟩
    exact if_pos ⟨hemp, hnb⟩
  exact List.ne_nil_of_mem hmem

theorem getCandidatesImproved_nil {b : Board} {pc ai lim : ℕ} (h : ¬ candExists b) :
    getCandidatesImproved b pc ai lim = [] := by
  unfold getCandidatesImproved
  rw [candScores_nil h]
  rw [List.take_eq_nil_iff]
  exact Or.inr rfl

theorem getCandidatesImproved_ne_nil {b : Board} {pc ai lim : ℕ}
    (h : candExists b) (hlim : 1 ≤ lim) : getCandidatesImproved b pc ai lim ≠ [] := by
  unfold getCandidatesImproved
  intro hcontra
  rw [List.take_eq_nil_iff] at hcontra
  rcases hcontra with h0 | hnil
  · omega
  · have hlen := length_sortCandsDesc (candScores b pc ai)
    rw [hnil, List.length_nil] at hlen
    exact candScores_ne_nil h (List.length_eq_zero.mp hlen.symm)

theorem findAllRushFoursImproved_nil {b : Board} {p : ℕ} (h : ¬ candExists b) :
    findAllRushFoursImproved b p = [] := by
  unfold findAllRushFoursImproved
  have hfm : (allCells.filterMap fun c =>
      if getCell b c.1 c.2 = 0 ∧ hasNeighbor b c.1 c.2 2 = true then
        let ms := ((lineScores b c.1 c.2 p).filter
          fun s => decide (SCORE_SIMPLE_FOUR ≤ s)).foldl Nat.max 0
        if SCORE_SIMPLE_FOUR ≤ ms then some (⟨c.1, c.2, 10 * (ms : ℤ)⟩ : Cand)
        else none
      else none) = [] := by
    rw [List.filterMap_eq_nil_iff]
    intro c hc
    exact if_neg fun hp => h ⟨c, mem_allCells.mp hc, hp.1, hp.2⟩
  rw [hfm]
  rfl

theorem findAllThreatsImproved_nil {b : Board} {p : ℕ} (h : ¬ candExists b) :
    findAllThreatsImproved b p = [] := by
  unfold findAllThreatsImproved
  have hfm : (allCells.filterMap fun c =>
      if getCell b c.1 c.2 = 0 ∧ hasNeighbor b c.1 c.2 2 = true then
        let s := evaluatePoint b c.1 c.2 p
        if SCORE_OPEN_THREE ≤ s then some (⟨c.1, c.2, 10 * (s : ℤ)⟩ : Cand)
        else none
      else none) = [] := by
    rw [List.filterMap_eq_nil_iff]
    intro c hc
    exact if_neg fun hp => h ⟨c, mem_allCells.mp hc, hp.1, hp.2⟩
  rw [hfm]
  rfl

theorem getEasyMove_pos {b : Board} (pc ai : ℕ) (r1 : Bool) (r2 : ℕ)
    (h : candExists b) : moveOK b (getEasyMove b pc ai r1 r2) := by
  unfold getEasyMove
  cases hf1 : findImmediateWin b ai with
  | some m => exact findImmediateWin_moveOK hf1
  | none =>
  cases hf2 : findImmediateWin b pc with
  | some m => exact findImmediateWin_moveOK hf2
  | none =>
  cases hf3 : findThreat b ai SCORE_OPEN_FOUR with
  | some m => exact findThreat_moveOK hf3
  | none =>
  cases hf4 : findThreat b pc SCORE_OPEN_FOUR with
  | some m => exact findThreat_moveOK hf4
  | none =>
  have hlen : 1 ≤ (easyCands b pc ai).length := by
    cases hh : easyCands b pc ai with
    | nil => exact absurd hh (easyCands_ne_nil h)
    | cons a t => simp
  rw [if_neg (easyCands_ne_nil h)]
  split_ifs with hr1
  · have h0 : 0 < (sortCandsDesc (easyCands b pc ai)).length := by
      rw [length_sortCandsDesc]
      omega
    rw [List.getD_eq_getElem _ _ h0]
    exact mem_easyCands (mem_sortCandsDesc.mp (List.getElem_mem h0))
  · have htop : 0 < min 3 (easyCands b pc ai).length := by omega
    have hidx : r2 % min 3 (easyCands b pc ai).length <
        (sortCandsDesc (easyCands b pc ai)).length := by
      rw [length_sortCandsDesc]
      have := Nat.mod_lt r2 htop
      omega
    rw [List.getD_eq_getElem _ _ hidx]
    exact mem_easyCands (mem_sortCandsDesc.mp (List.getElem_mem hidx))

theorem getEasyMove_neg {b : Board} (pc ai : ℕ) (r1 : Bool) (r2 : ℕ)
    (h : ¬ candExists b) : getEasyMove b pc ai r1 r2 = (7, 7) := by
  unfold getEasyMove
  rw [findImmediateWin_none h, findImmediateWin_none h, findThreat_none h,
    findThreat_none h]
  exact if_pos (easyCands_nil h)

theorem argmaxScan_acc_some {sc : (ℤ × ℤ) → Option ℤ} :
    ∀ (l : List (ℤ × ℤ)) (m : ℤ × ℤ) (v : ℤ),
      (argmaxScan sc l (some (m, v))).isSome = true := by
  intro l
  induction l with
  | nil => intro m v; rfl
  | cons c rest ih =>
    intro m v
    rw [argmaxScan]
    cases hcc : sc c with
    | none => simp only [hcc]; exact ih m v
    | some w =>
      simp only [hcc]
      split_ifs
      · exact ih c w
      · exact ih m v

theorem argmaxScan_isSome {sc : (ℤ × ℤ) → Option ℤ} :
    ∀ (l : List (ℤ × ℤ)) (acc : Option ((ℤ × ℤ) × ℤ)),
      ((∃ c ∈ l, (sc c).isSome = true) ∨ acc.isSome = true) →
      (argmaxScan sc l acc).isSome = true := by
  intro l
  induction l with
  | nil =>
    intro acc h
    rcases h with ⟨c, hc, _⟩ | h
    · exact absurd hc (List.not_mem_nil c)
    · exact h
  | cons c rest ih =>
    intro acc h
    rw [argmaxScan]
    cases acc with
    | some p =>
      obtain ⟨m, v⟩ := p
      cases hcc : sc c with
      | none => simp only [hcc]; exact argmaxScan_acc_some rest m v
      | some w =>
        simp only [hcc]
        split_ifs
        · exact argmaxScan_acc_some rest c w
        · exact argmaxScan_acc_some rest m v
    | none =>
      cases hcc : sc c with
      | some w => simp only [hcc]; exact argmaxScan_acc_some rest c w
      | none =>
        simp only [hcc]
        refine ih none (Or.inl ?_)
        rcases h with ⟨d, hd, hds⟩ | h
        · rcases List.mem_cons.mp hd with rfl | hd2
          · rw [hcc] at hds
            exact absurd hds (by simp)
          · exact ⟨d, hd2, hds⟩
        · exact absurd h (by simp)

theorem argmaxScan_mem {sc : (ℤ × ℤ) → Option ℤ} {P : (ℤ × ℤ) → Prop} :
    ∀ (l : List (ℤ × ℤ)) (acc : Option ((ℤ × ℤ) × ℤ)),
      (∀ c ∈ l, ∀ v, sc c = some v → P c) →
      (∀ m v, acc = some (m, v) → P m) →
      ∀ r, argmaxScan sc l acc = some r → P r.1 := by
  intro l
  induction l with
  | nil =>
    intro acc _ hacc r hr
    obtain ⟨m, v⟩ := r
    exact hacc m v hr
  | cons c rest ih =>
    intro acc hP hacc r hr
    rw [argmaxScan] at hr
    cases acc with
    | none =>
      cases hcc : sc c with
      | none =>
        simp only [hcc] at hr
        exact ih none (fun d hd => hP d (List.mem_cons_of_mem c hd)) hacc r hr
      | some w =>
        simp only [hcc] at hr
        refine ih (some (c, w)) (fun d hd => hP d (List.mem_cons_of_mem c hd))
          ?_ r hr
        intro m v hmv
        cases hmv
        exact hP c (List.mem_cons_self c rest) w hcc
    | some p =>
      obtain ⟨m0, bs⟩ := p
      cases hcc : sc c with
      | none =>
        simp only [hcc] at hr
        exact ih _ (fun d hd => hP d (List.mem_cons_of_mem c hd)) hacc r hr
      | some w =>
        simp only [hcc] at hr
        split_ifs at hr
        · refine ih (some (c, w)) (fun d hd => hP d (List.mem_cons_of_mem c hd))
            ?_ r hr
          intro m v hmv
          cases hmv
          exact hP c (List.mem_cons_self c rest) w hcc
        · exact ih _ (fun d hd => hP d (List.mem_cons_of_mem c hd)) hacc r hr

theorem argmaxScan_none_of {sc : (ℤ × ℤ) → Option ℤ} :
    ∀ (l : List (ℤ × ℤ)), (∀ c ∈ l, sc c = none) →
      argmaxScan sc l none = none := by
  intro l
  induction l with
  | nil => intro _; rfl
  | cons c rest ih =>
    intro hl
    rw [argmaxScan]
    have hcc := hl c (List.mem_cons_self c rest)
    simp only [hcc]
    exact ih fun d hd => hl d (List.mem_cons_of_mem c hd)

theorem mediumScore_some {b : Board} {pc ai : ℕ} {c : ℤ × ℤ} {v : ℤ}
    (h : mediumScore b pc ai c = some v) :
    getCell b c.1 c.2 = 0 ∧ hasNeighbor b c.1 c.2 2 = true := by
  unfold mediumScore at h
  exact (ite_some_elim h).1

theorem mediumScore_none {b : Board} {pc ai : ℕ} {c : ℤ × ℤ}
    (h : ¬ candExists b) (hin : inB c.1 c.2 = true) :
    mediumScore b pc ai c = none := by
  unfold mediumScore
  exact if_neg fun hp => h ⟨c, hin, hp.1, hp.2⟩

theorem getMediumMove_pos {b : Board} {pc ai : ℕ} (h : candExists b) :
    moveOK b (getMediumMove b pc ai) := by
  unfold getMediumMove
  cases hf1 : findImmediateWin b ai with
  | some m => exact findImmediateWin_moveOK hf1
  | none =>
  cases hf2 : findImmediateWin b pc with
  | some m => exact findImmediateWin_moveOK hf2
  | none =>
  cases hf3 : findThreat b ai SCORE_OPEN_FOUR with
  | some m => exact findThreat_moveOK hf3
  | none =>
  cases hf4 : findThreat b pc SCORE_OPEN_FOUR with
  | some m => exact findThreat_moveOK hf4
  | none =>
  cases hsc : argmaxScan (mediumScore b pc ai) allCells none with
  | some r =>
    refine argmaxScan_mem allCells none ?_ (fun m v hmv => by cases hmv) r hsc
    intro c hc v hcv
    exact ⟨mem_allCells.mp hc, (mediumScore_some hcv).1⟩
  | none =>
    exfalso
    obtain ⟨c, hin, hemp, hnb⟩ := h
    have hsome : (argmaxScan (mediumScore b pc ai) allCells none).isSome = true := by
      refine argmaxScan_isSome allCells none (Or.inl ⟨c, mem_allCells.mpr hin, ?_⟩)
      unfold mediumScore
      rw [if_pos ⟨hemp, hnb⟩]
      rfl
    rw [hsc] at hsome
    exact absurd hsome (by simp)

theorem getMediumMove_neg {b : Board} {pc ai : ℕ} (h : ¬ candExists b) :
    getMediumMove b pc ai = (7, 7) := by
  unfold getMediumMove
  rw [findImmediateWin_none h, findImmediateWin_none h, findThreat_none h,
    findThreat_none h]
  rw [argmaxScan_none_of allCells fun c hc => mediumScore_none h (mem_allCells.mp hc)]

theorem mmLoopMax_val {f : Board → XQ → XQ → XQ × Board} {pl : ℕ}
    (hf : ∀ b α β, ∃ z, (f b α β).1 = XQ.val z) :
    ∀ (L : List Cand) (b : Board) (α β mx : XQ),
      ((∃ z, mx = XQ.val z) ∨ (L ≠ [] ∧ mx = XQ.negInf)) →
      ∃ z, (mmLoopMax f pl L b α β mx).1 = XQ.val z := by
  intro L
  induction L with
  | nil =>
    intro b α β mx hmx
    rcases hmx with ⟨z, rfl⟩ | ⟨hne, _⟩
    · exact ⟨z, rfl⟩
    · exact absurd rfl hne
  | cons c rest ih =>
    intro b α β mx hmx
    simp only [mmLoopMax]
    obtain ⟨w, hw⟩ := hf (setCell b c.x c.y pl) α β
    have hmx2 : ∃ z, XQ.qmax mx (f (setCell b c.x c.y pl) α β).1 = XQ.val z := by
      rw [hw]
      rcases hmx with ⟨z, rfl⟩ | ⟨_, rfl⟩
      · rw [XQ.qmax]
        split_ifs
        · exact ⟨w, rfl⟩
        · exact ⟨z, rfl⟩
      · rw [XQ.qmax]
        rw [if_pos (show XQ.ble XQ.negInf (XQ.val w) = true from rfl)]
        exact ⟨w, rfl⟩
    split_ifs
    · exact hmx2
    · exact ih _ _ _ _ (Or.inl hmx2)

theorem mmLoopMin_val {f : Board → XQ → XQ → XQ × Board} {pl : ℕ}
    (hf : ∀ b α β, ∃ z, (f b α β).1 = XQ.val z) :
    ∀ (L : List Cand) (b : Board) (α β mn : XQ),
      ((∃ z, mn = XQ.val z) ∨ (L ≠ [] ∧ mn = XQ.posInf)) →
      ∃ z, (mmLoopMin f pl L b α β mn).1 = XQ.val z := by
  intro L
  induction L with
  | nil =>
    intro b α β mn hmn
    rcases hmn with ⟨z, rfl⟩ | ⟨hne, _⟩
    · exact ⟨z, rfl⟩
    · exact absurd rfl hne
  | cons c rest ih =>
    intro b α β mn hmn
    simp only [mmLoopMin]
    obtain ⟨w, hw⟩ := hf (setCell b c.x c.y pl) α β
    have hmn2 : ∃ z, XQ.qmin mn (f (setCell b c.x c.y pl) α β).1 = XQ.val z := by
      rw [hw]
      rcases hmn with ⟨z, rfl⟩ | ⟨_, rfl⟩
      · rw [XQ.qmin]
        split_ifs
        · exact ⟨z, rfl⟩
        · exact ⟨w, rfl⟩
      · rw [XQ.qmin]
        rw [if_neg (show ¬ XQ.ble XQ.posInf (XQ.val w) = true from fun hq => by cases hq)]
        exact ⟨w, rfl⟩
    split_ifs
    · exact hmn2
    · exact ih _ _ _ _ (Or.inl hmn2)

theorem minimax_val (pc ai : ℕ) :
    ∀ (d : ℕ) (b : Board) (α β : XQ) (isMax : Bool),
      ∃ z, (minimax pc ai d b α β isMax).1 = XQ.val z := by
  intro d
  induction d with
  | zero =>
    intro b α β isMax
    rw [minimax]
    split_ifs
    · exact ⟨_, rfl⟩
    · exact ⟨_, rfl⟩
    · exact ⟨_, rfl⟩
  | succ d ih =>
    intro b α β isMax
    rw [minimax]
    split_ifs with h1 h2 h3 h4
    · exact ⟨_, rfl⟩
    · exact ⟨_, rfl⟩
    · exact ⟨_, rfl⟩
    · exact mmLoopMax_val (fun b2 α2 β2 => ih b2 α2 β2 false) _ b α β _
        (Or.inr ⟨h3, rfl⟩)
    · exact mmLoopMin_val (fun b2 α2 β2 => ih b2 α2 β2 true) _ b α β _
        (Or.inr ⟨h3, rfl⟩)

theorem minimaxHellImproved_val (pc ai : ℕ) :
    ∀ (d : ℕ) (b : Board) (α β : XQ) (isMax : Bool),
      ∃ z, (minimaxHellImproved pc ai d b α β isMax).1 = XQ.val z := by
  intro d
  induction d with
  | zero =>
    intro b α β isMax
    rw [minimaxHellImproved]
    split_ifs
    · exact ⟨_, rfl⟩
    · exact ⟨_, rfl⟩
    · exact ⟨_, rfl⟩
  | succ d ih =>
    intro b α β isMax
    rw [minimaxHellImproved]
    split_ifs with h1 h2 h3 h4
    · exact ⟨_, rfl⟩
    · exact ⟨_, rfl⟩
    · exact ⟨_, rfl⟩
    · exact mmLoopMax_val (fun b2 α2 β2 => ih b2 α2 β2 false) _ b α β _
        (Or.inr ⟨h3, rfl⟩)
    · exact mmLoopMin_val (fun b2 α2 β2 => ih b2 α2 β2 true) _ b α β _
        (Or.inr ⟨h3, rfl⟩)

theorem bestMoveLoop_isSome {f : Board → XQ × Board} {pl : ℕ}
    (hf : ∀ b1, ∃ z, (f b1).1 = XQ.val z) :
    ∀ (L : List Cand) (b : Board) (best : Option (ℤ × ℤ)) (bs : XQ),
      (best.isSome = true ∨ (L ≠ [] ∧ bs = XQ.negInf)) →
      ((bestMoveLoop f pl L b best bs).1).isSome = true := by
  intro L
  induction L with
  | nil =>
    intro b best bs h
    rcases h with h | ⟨hne, _⟩
    · exact h
    · exact absurd rfl hne
  | cons c rest ih =>
    intro b best bs h
    simp only [bestMoveLoop]
    split_ifs with hlt
    · exact ih _ (some (c.x, c.y)) _ (Or.inl rfl)
    · rcases h with hb | ⟨_, rfl⟩
      · exact ih _ best bs (Or.inl hb)
      · obtain ⟨z, hz⟩ := hf (setCell b c.x c.y pl)
        rw [hz] at hlt
        exact absurd rfl hlt

theorem bestMoveLoop_mem {f : Board → XQ × Board} {pl : ℕ} {P : ℤ × ℤ → Prop} :
    ∀ (L : List Cand) (b : Board) (best : Option (ℤ × ℤ)) (bs : XQ),
      (∀ m, best = some m → P m) → (∀ c ∈ L, P (c.x, c.y)) →
      ∀ m, (bestMoveLoop f pl L b best bs).1 = some m → P m := by
  intro L
  induction L with
  | nil =>
    intro b best bs hacc _ m hm
    exact hacc m hm
  | cons c rest ih =>
    intro b best bs hacc hL m hm
    simp only [bestMoveLoop] at hm
    split_ifs at hm
    · refine ih _ (some (c.x, c.y)) _ ?_ (fun d hd => hL d (List.mem_cons_of_mem c hd)) m hm
      intro m' hm'
      cases hm'
      exact hL c (List.mem_cons_self c rest)
    · exact ih _ best bs hacc (fun d hd => hL d (List.mem_cons_of_mem c hd)) m hm

theorem hardMinimax_moveOK {b : Board} {pc ai : ℕ} (h : candExists b) :
    moveOK b (hardMinimax b pc ai) := by
  have hne : getCandidatesImproved b pc ai 15 ≠ [] :=
    getCandidatesImproved_ne_nil h (by norm_num)
  have hs := @bestMoveLoop_isSome _ ai
    (fun b1 => minimax_val pc ai 3 b1 XQ.negInf XQ.posInf false)
    (getCandidatesImproved b pc ai 15) b none XQ.negInf (Or.inr ⟨hne, rfl⟩)
  obtain ⟨m, hm⟩ := Option.isSome_iff_exists.mp hs
  have hP := bestMoveLoop_mem (P := moveOK b) (getCandidatesImproved b pc ai 15) b
    none XQ.negInf (fun m' hm' => by cases hm')
    (fun c hc => ⟨(mem_getCandidatesImproved hc).2, (mem_getCandidatesImproved hc).1⟩)
    m hm
  unfold hardMinimax
  rw [hm]
  exact hP

theorem hardMinimax_nil {b : Board} {pc ai : ℕ} (h : ¬ candExists b) :
    hardMinimax b pc ai = (7, 7) := by
  unfold hardMinimax
  rw [getCandidatesImproved_nil h]
  rfl

theorem hellMinimaxImproved_moveOK {b : Board} {pc ai : ℕ} (h : candExists b) :
    moveOK b (hellMinimaxImproved b pc ai) := by
  have hne : getCandidatesImproved b pc ai 18 ≠ [] :=
    getCandidatesImproved_ne_nil h (by norm_num)
  have hs := @bestMoveLoop_isSome _ ai
    (fun b1 => minimaxHellImproved_val pc ai 5 b1 XQ.negInf XQ.posInf false)
    (getCandidatesImproved b pc ai 18) b none XQ.negInf (Or.inr ⟨hne, rfl⟩)
  obtain ⟨m, hm⟩ := Option.isSome_iff_exists.mp hs
  have hP := bestMoveLoop_mem (P := moveOK b) (getCandidatesImproved b pc ai 18) b
    none XQ.negInf (fun m' hm' => by cases hm')
    (fun c hc => ⟨(mem_getCandidatesImproved hc).2, (mem_getCandidatesImproved hc).1⟩)
    m hm
  unfold hellMinimaxImproved
  rw [hm]
  exact hP

theorem hellMinimaxImproved_nil {b : Board} {pc ai : ℕ} (h : ¬ candExists b) :
    hellMinimaxImproved b pc ai = (7, 7) := by
  unfold hellMinimaxImproved
  rw [getCandidatesImproved_nil h]
  rfl

theorem getHardMove_pos {b : Board} {pc ai : ℕ} (h : candExists b) :
    moveOK b (getHardMove b pc ai) := by
  unfold getHardMove
  cases hf1 : findImmediateWin b ai with
  | some m => exact findImmediateWin_moveOK hf1
  | none =>
  cases hf2 : findImmediateWin b pc with
  | some m => exact findImmediateWin_moveOK hf2
  | none =>
  cases hf3 : findThreat b ai SCORE_OPEN_FOUR with
  | some m => exact findThreat_moveOK hf3
  | none =>
  cases hf4 : findThreat b pc SCORE_OPEN_FOUR with
  | some m => exact findThreat_moveOK hf4
  | none =>
  cases hf5 : findThreat b ai SCORE_SIMPLE_FOUR with
  | some m => exact findThreat_moveOK hf5
  | none =>
  cases hf6 : findDoubleRushFour b ai with
  | some m => exact findDoubleRushFour_moveOK hf6
  | none =>
  cases hf7 : findFourThreeCombo b ai with
  | some m => exact findFourThreeCombo_moveOK hf7
  | none =>
  cases hf8 : findDoubleThree b ai with
  | some m => exact findDoubleThree_moveOK hf8
  | none =>
  cases hf9 : findDoubleRushFour b pc with
  | some m => exact findDoubleRushFour_moveOK hf9
  | none =>
  cases hf10 : findFourThreeCombo b pc with
  | some m => exact findFourThreeCombo_moveOK hf10
  | none =>
  cases hf11 : findDoubleThree b pc with
  | some m => exact findDoubleThree_moveOK hf11
  | none => exact hardMinimax_moveOK h

theorem getHardMove_neg {b : Board} {pc ai : ℕ} (h : ¬ candExists b) :
    getHardMove b pc ai = (7, 7) := by
  unfold getHardMove
  rw [findImmediateWin_none h, findImmediateWin_none h, findThreat_none h,
    findThreat_none h, findThreat_none h, findDoubleRushFour_none h,
    findFourThreeCombo_none h, findDoubleThree_none h, findDoubleRushFour_none h,
    findFourThreeCombo_none h, findDoubleThree_none h]
  exact hardMinimax_nil h

theorem vcfMoveLoop_some {f : Board → Option (ℤ × ℤ) × Board} {player opp : ℕ}
    {P : ℤ × ℤ → Prop} :
    ∀ (L : List Cand) (b : Board), (∀ c ∈ L, P (c.x, c.y)) →
      ∀ m, (vcfMoveLoop f player opp L b).1 = some m → P m := by
  intro L
  induction L with
  | nil =>
    intro b _ m hm
    simp only [vcfMoveLoop] at hm
    exact Option.noConfusion hm
  | cons c rest ih =>
    intro b hL m hm
    simp only [vcfMoveLoop] at hm
    split_ifs at hm
    · have hm2 : some (c.x, c.y) = some m := hm
      cases hm2
      exact hL c (List.mem_cons_self c rest)
    · have hm2 : some (c.x, c.y) = some m := hm
      cases hm2
      exact hL c (List.mem_cons_self c rest)
    · exact ih _ (fun d hd => hL d (List.mem_cons_of_mem c hd)) m hm

theorem vcfSearch_some {player opp : ℕ} :
    ∀ (d : ℕ) (isAtt : Bool) (b : Board) (m : ℤ × ℤ),
      (vcfSearch player opp d isAtt b).1 = some m → moveOK b m := by
  intro d
  induction d with
  | zero =>
    intro isAtt b m hm
    simp only [vcfSearch] at hm
    exact Option.noConfusion hm
  | succ d ih =>
    intro isAtt b m hm
    rw [vcfSearch] at hm
    split_ifs at hm with h1 h2
    · exact findImmediateWin_moveOK hm
    · refine vcfMoveLoop_some (findAllRushFoursImproved b player) b ?_ m hm
      intro c hc
      exact ⟨(mem_findAllRushFoursImproved hc).2, (mem_findAllRushFoursImproved hc).1⟩

theorem searchVCF_moveOK {b : Board} {p d : ℕ} {m : ℤ × ℤ}
    (h : (searchVCFImproved b p d).1 = some m) : moveOK b m := by
  unfold searchVCFImproved at h
  exact vcfSearch_some d true b m h

theorem searchVCF_none {b : Board} {p d : ℕ} (h : ¬ candExists b) :
    (searchVCFImproved b p d).1 = none := by
  unfold searchVCFImproved
  cases d with
  | zero => rfl
  | succ d =>
    rw [vcfSearch]
    rw [if_neg (by rw [hasImmediateWin_false h]; exact Bool.false_ne_true)]
    rw [if_pos rfl]
    rw [findAllRushFoursImproved_nil h]
    rfl

theorem vctLoop_some {player : ℕ} {P : ℤ × ℤ → Prop} :
    ∀ (L : List Cand) (b : Board), (∀ c ∈ L, P (c.x, c.y)) →
      ∀ m, (vctLoop player L b).1 = some m → P m := by
  intro L
  induction L with
  | nil =>
    intro b _ m hm
    simp only [vctLoop] at hm
    exact Option.noConfusion hm
  | cons c rest ih =>
    intro b hL m hm
    simp only [vctLoop] at hm
    split_ifs at hm
    · have hm2 : some (c.x, c.y) = some m := hm
      cases hm2
      exact hL c (List.mem_cons_self c rest)
    · exact ih _ (fun d hd => hL d (List.mem_cons_of_mem c hd)) m hm

theorem searchVCT_moveOK {b : Board} {p d : ℕ} {m : ℤ × ℤ}
    (h : (searchVCTImproved b p d).1 = some m) : moveOK b m := by
  unfold searchVCTImproved at h
  refine vctLoop_some _ b ?_ m h
  intro c hc
  have h2 := mem_findAllThreatsImproved (List.take_subset _ _ hc)
  exact ⟨h2.2, h2.1⟩

theorem searchVCT_none {b : Board} {p d : ℕ} (h : ¬ candExists b) :
    (searchVCTImproved b p d).1 = none := by
  unfold searchVCTImproved
  rw [findAllThreatsImproved_nil h]
  rfl

theorem lookupResponse_moveOK {b : Board} {fm : HMove} {m : ℤ × ℤ}
    (h : lookupResponse b fm = some m) : moveOK b m := by
  unfold lookupResponse at h
  obtain ⟨resp, hresp, hr⟩ := findSome?_some_mem h
  obtain ⟨hcond, h3⟩ := ite_some_elim hr
  cases h3
  rw [Bool.and_eq_true, decide_eq_true_eq] at hcond
  refine ⟨?_, hcond.2⟩
  fin_cases hresp <;> decide

theorem mem_openingCands {b : Board} {pc ai : ℕ} {c : Cand}
    (h : c ∈ openingCands b pc ai) : moveOK b (c.x, c.y) := by
  unfold openingCands at h
  obtain ⟨o, ho, hfo⟩ := List.mem_filterMap.mp h
  obtain ⟨hcond, h3⟩ := ite_some_elim hfo
  cases h3
  refine ⟨?_, hcond.1⟩
  have hb := mem_offsetsList.mp ho
  rw [inB_iff]
  push_cast at hb
  obtain ⟨u1, u2, u3, u4⟩ := hb
  refine ⟨?_, ?_, ?_, ?_⟩
  · show (0 : ℤ) ≤ 7 + o.1
    omega
  · show 7 + o.1 < 15
    omega
  · show (0 : ℤ) ≤ 7 + o.2
    omega
  · show 7 + o.2 < 15
    omega

theorem findBestOpeningMove_moveOK {b : Board} {pc ai : ℕ}
    (hcc : getCell b 7 7 = 0 ∨ openingCands b pc ai ≠ []) :
    moveOK b (findBestOpeningMove b pc ai) := by
  unfold findBestOpeningMove
  split_ifs with hnil
  · rcases hcc with hc | hne
    · exact ⟨by decide, hc⟩
    · exact absurd hnil hne
  · have hlen : 0 < (sortCandsDesc (openingCands b pc ai)).length := by
      rw [length_sortCandsDesc]
      cases hh : openingCands b pc ai with
      | nil => exact absurd hh hnil
      | cons a t => simp
    rw [List.getD_eq_getElem _ _ hlen]
    exact mem_openingCands (mem_sortCandsDesc.mp (List.getElem_mem hlen))

theorem getHellMove_pos {b : Board} {hist : List HMove} {pc ai : ℕ}
    (hwf : hist.length = stoneCount b) (h : candExists b) :
    moveOK b (getHellMove b hist pc ai) := by
  unfold getHellMove
  split_ifs with h0 h1
  · exact absurd h (not_candExists_of_empty (by omega))
  · have hsc : stoneCount b = 1 := by omega
    cases hlr : lookupResponse b (hist.getD 0 ⟨0, 0, 0⟩) with
    | some m => exact lookupResponse_moveOK hlr
    | none =>
      apply findBestOpeningMove_moveOK
      by_cases h77 : getCell b 7 7 = 0
      · exact Or.inl h77
      · refine Or.inr ?_
        have h66 : getCell b 6 6 = 0 := by
          by_contra hne
          obtain ⟨e1, _⟩ := stone_unique (by omega) hne h77
          norm_num at e1
        have e71 : (7 : ℤ) + -1 = 6 := by norm_num
        have e61 : (6 : ℤ) + 1 = 7 := by norm_num
        have hnb : hasNeighbor b 6 6 1 = true := by
          rw [hasNeighbor, List.any_eq_true]
          refine ⟨(1, 1), mem_offsetsList.mpr (by norm_num), ?_⟩
          simp only [Bool.and_eq_true, Bool.not_eq_true', decide_eq_false_iff_not,
            decide_eq_true_eq]
          rw [e61]
          exact ⟨⟨by norm_num, by decide⟩, h77⟩
        have hmem : (⟨(7 : ℤ) + -1, (7 : ℤ) + -1,
            10 * ((evaluatePoint b ((7 : ℤ) + -1) ((7 : ℤ) + -1) ai
              + evaluatePoint b ((7 : ℤ) + -1) ((7 : ℤ) + -1) pc : ℕ) : ℤ)⟩ : Cand)
            ∈ openingCands b pc ai := by
          unfold openingCands
          refine List.mem_filterMap.mpr ⟨(-1, -1), mem_offsetsList.mpr (by norm_num), ?_⟩
          refine if_pos ⟨?_, ?_⟩
          · rw [e71]
            exact h66
          · rw [e71]
            exact hnb
        exact List.ne_nil_of_mem hmem
  · cases hf1 : findImmediateWin b ai with
    | some m => exact findImmediateWin_moveOK hf1
    | none =>
    cases hf2 : findImmediateWin b pc with
    | some m => exact findImmediateWin_moveOK hf2
    | none =>
    cases hf3 : findThreat b ai SCORE_OPEN_FOUR with
    | some m => exact findThreat_moveOK hf3
    | none =>
    cases hf4 : findThreat b pc SCORE_OPEN_FOUR with
    | some m => exact findThreat_moveOK hf4
    | none =>
    cases hf5 : findDoubleRushFour b ai with
    | some m => exact findDoubleRushFour_moveOK hf5
    | none =>
    cases hf6 : findFourThreeCombo b ai with
    | some m => exact findFourThreeCombo_moveOK hf6
    | none =>
    cases hf7 : findDoubleThree b ai with
    | some m => exact findDoubleThree_moveOK hf7
    | none =>
    cases hf8 : findDoubleRushFour b pc with
    | some m => exact findDoubleRushFour_moveOK hf8
    | none =>
    cases hf9 : findFourThreeCombo b pc with
    | some m => exact findFourThreeCombo_moveOK hf9
    | none =>
    cases hf10 : findDoubleThree b pc with
    | some m => exact findDoubleThree_moveOK hf10
    | none =>
    cases hf11 : (searchVCFImproved b ai 8).1 with
    | some m => exact searchVCF_moveOK hf11
    | none =>
    cases hf12 : (searchVCTImproved b ai 4).1 with
    | some m => exact searchVCT_moveOK hf12
    | none => exact hellMinimaxImproved_moveOK h

theorem getHellMove_neg {b : Board} {hist : List HMove} {pc ai : ℕ}
    (hwf : hist.length = stoneCount b) (h : ¬ candExists b) :
    getHellMove b hist pc ai = (7, 7) := by
  unfold getHellMove
  split_ifs with h0 h1
  · rfl
  · exact absurd (candExists_of_one (by omega)) h
  · rw [findImmediateWin_none h, findImmediateWin_none h, findThreat_none h,
      findThreat_none h, findDoubleRushFour_none h, findFourThreeCombo_none h,
      findDoubleThree_none h, findDoubleRushFour_none h, findFourThreeCombo_none h,
      findDoubleThree_none h, searchVCF_none h, searchVCT_none h]
    exact hellMinimaxImproved_nil h

set_option maxRecDepth 4000 in
/-- Claim C9: whenever the computer is asked to move (any tier, any state
satisfying the session invariant that ties the history length to the
stone count), the returned move references an empty in-bounds cell when
some neighbour-adjacent empty candidate exists, and degrades to the
centre fallback `(7, 7)` when none does. -/
theorem claim_C9 (st : GState) (r1 : Bool) (r2 : ℕ)
    (hwf : st.history.length = stoneCount st.board) :
    (candExists st.board → moveOK st.board (getAIMove st r1 r2)) ∧
    (¬ candExists st.board → getAIMove st r1 r2 = (7, 7)) := by
  constructor
  · intro h
    unfold getAIMove
    cases st.difficulty with
    | easy => exact getEasyMove_pos _ _ r1 r2 h
    | medium => exact getMediumMove_pos h
    | hard => exact getHardMove_pos h
    | hell => exact getHellMove_pos hwf h
  · intro h
    unfold getAIMove
    cases st.difficulty with
    | easy => exact getEasyMove_neg _ _ r1 r2 h
    | medium => exact getMediumMove_neg h
    | hard => exact getHardMove_neg h
    | hell => exact getHellMove_neg hwf h

/-- Witness for claim C9 on the concrete easy-tier state `stC9` (one
stone at `(3, 3)`, one history entry). -/
theorem claim_C9_witness :
    stC9.history.length = stoneCount stC9.board ∧
    ((candExists stC9.board → moveOK stC9.board (getAIMove stC9 true 0)) ∧
     (¬ candExists stC9.board → getAIMove stC9 true 0 = (7, 7))) :=
  ⟨by decide, claim_C9 stC9 true 0 (by decide)⟩

end Gomoku
